import Mathlib

/-!
Verification of the frame codec and endpoint shutdown of the
`python-json-network` repository against its natural-language specification.

The Python sources are shallowly embedded:

* Python `str` values are lists of Unicode code points (`Str := List Nat`),
  Python `bytes` values are lists of byte values (`Bytes := List Nat`).
* Python `dict` values with string keys are association lists in insertion
  order (`PyDict`); assignment, membership, deletion and lookup are modelled
  by `pyAssign`, `pyContains`, `pyDelete`, `pyGet` with Python's semantics
  (assignment to an existing key keeps its position, new keys append).
* `json.dumps(..., ensure_ascii=False)` and `json.loads` from the standard
  library are modelled over a JSON value type `JVal` by `dumps` and `loads`
  (integers only; the claims under study involve no floating point numbers).
* `str.encode('utf-8')` / `bytes.decode('utf-8')` are modelled by
  `utf8Encode` / `utf8Decode` (strict mode: surrogates and malformed or
  overlong sequences are rejected, as in CPython).
* `struct.pack('>L', n)` / `struct.unpack('>L', b)` are modelled by
  `structPackL` / `structUnpackL`.
* Fallible Python code returns `Except PyErr`; mutation of a caller-supplied
  dict is modelled by returning the dict's final state alongside the result.
-/

/-- A Python `str`: a list of Unicode code points. -/
abbrev Str := List Nat

/-- A Python `bytes` value: a list of byte values (each `< 256`). -/
abbrev Bytes := List Nat

/-- Code points of a name written as a Lean string literal (ASCII only in
this development). -/
def strCodes (s : String) : Str := s.toList.map Char.toNat

/-- Python exception classes that the embedded code can raise. -/
inductive PyErr where
  | valueError
  | structError
  | unicodeEncodeError
  | unicodeDecodeError
  | jsonDecodeError
  | typeError
  | keyError
  | unboundLocalError
deriving DecidableEq, Repr

/-- A JSON value as handled by `json.dumps` / `json.loads`.  Object members
are kept in insertion order, exactly as Python 3 dicts do.  Numbers are
restricted to integers: no claim under study involves floating point. -/
inductive JVal where
  | null
  | bool (b : Bool)
  | int (n : Int)
  | str (s : Str)
  | arr (elems : List JVal)
  | obj (members : List (Str × JVal))

/-- A Python dict with string keys and JSON values, in insertion order. -/
abbrev PyDict := List (Str × JVal)

mutual

/-- Structural equality of JSON values (no deriving handler applies to the
nested inductive, so it is spelled out). -/
def JVal.beq : JVal → JVal → Bool
  | .null, .null => true
  | .bool a, .bool b => a == b
  | .int a, .int b => a == b
  | .str a, .str b => a == b
  | .arr a, .arr b => JVal.beqList a b
  | .obj a, .obj b => JVal.beqMembers a b
  | _, _ => false

/-- Elementwise equality of value lists. -/
def JVal.beqList : List JVal → List JVal → Bool
  | [], [] => true
  | x :: xs, y :: ys => JVal.beq x y && JVal.beqList xs ys
  | _, _ => false

/-- Elementwise equality of member lists. -/
def JVal.beqMembers : List (Str × JVal) → List (Str × JVal) → Bool
  | [], [] => true
  | (k, v) :: xs, (l, w) :: ys => k == l && JVal.beq v w && JVal.beqMembers xs ys
  | _, _ => false

end

mutual

/-- Every object anywhere inside the value has pairwise-distinct keys.
A value built from live Python data always satisfies this: a Python dict
cannot hold a key twice. -/
def JVal.wfB : JVal → Bool
  | .null => true
  | .bool _ => true
  | .int _ => true
  | .str _ => true
  | .arr xs => JVal.wfListB xs
  | .obj kvs => keysDistinctB kvs && JVal.wfMembersB kvs

/-- `JVal.wfB` on every element. -/
def JVal.wfListB : List JVal → Bool
  | [] => true
  | x :: xs => JVal.wfB x && JVal.wfListB xs

/-- `JVal.wfB` on every member value. -/
def JVal.wfMembersB : List (Str × JVal) → Bool
  | [] => true
  | (_, v) :: kvs => JVal.wfB v && JVal.wfMembersB kvs

/-- Pairwise-distinct keys of a member list. -/
def keysDistinctB : List (Str × JVal) → Bool
  | [] => true
  | (k, _) :: kvs => kvs.all (fun kv => kv.1 != k) && keysDistinctB kvs

end

/-- A Python dict whose values are exportable to JSON: distinct keys at the
top and in every nested object. -/
def pyDictWfB (d : PyDict) : Bool := JVal.wfB (.obj d)

/-- Python dict assignment `d[k] = v`: replaces the value at the first
occurrence of `k`, keeping its position, or appends a new entry. -/
def pyAssign (d : PyDict) (k : Str) (v : JVal) : PyDict :=
  match d with
  | [] => [(k, v)]
  | (k', v') :: rest =>
    if k' = k then (k', v) :: rest else (k', v') :: pyAssign rest k v

/-- Python dict membership `k in d`. -/
def pyContains (d : PyDict) (k : Str) : Bool :=
  d.any (fun kv => kv.1 = k)

/-- Python dict deletion `del d[k]`: removes the first occurrence of `k`,
keeping the order of the other entries. -/
def pyDelete (d : PyDict) (k : Str) : PyDict :=
  match d with
  | [] => []
  | (k', v') :: rest =>
    if k' = k then rest else (k', v') :: pyDelete rest k

/-- Python dict lookup `d[k]`: the value at the first occurrence of `k`, or
a `KeyError`. -/
def pyGet (d : PyDict) (k : Str) : Except PyErr JVal :=
  match d with
  | [] => .error .keyError
  | (k', v') :: rest => if k' = k then .ok v' else pyGet rest k

/-! ## The serializer: `json.dumps(value, ensure_ascii=False)`

With `ensure_ascii=False` and default separators, CPython writes `null`,
`true`, `false`, decimal integers, strings in which only `"`, `\` and
control characters below `U+0020` are escaped (`\b \t \n \f \r` shortcuts,
`\u00xy` with lowercase hex otherwise), arrays as `[a, b]` and objects as
`{"k": v}` with `", "` and `": "` separators. -/

/-- The code point of the hex digit for `n < 16` (lowercase, as CPython's
`json` writes `\uXXXX` escapes). -/
def hexDigitCode (n : Nat) : Nat := if n < 10 then 48 + n else 87 + n

/-- How `json.dumps(..., ensure_ascii=False)` writes one string character. -/
def escapeChar (c : Nat) : Str :=
  if c = 34 then [92, 34]
  else if c = 92 then [92, 92]
  else if c = 8 then [92, 98]
  else if c = 9 then [92, 116]
  else if c = 10 then [92, 110]
  else if c = 12 then [92, 102]
  else if c = 13 then [92, 114]
  else if c < 32 then [92, 117, 48, 48, hexDigitCode (c / 16), hexDigitCode (c % 16)]
  else [c]

/-- A JSON string literal: quote, escaped characters, quote. -/
def dumpStr (s : Str) : Str := 34 :: s.flatMap escapeChar ++ [34]

/-- Decimal digits, most significant first, with enough fuel to divide the
number down (fuel keeps the recursion structural, so that it computes
inside the kernel; `natDigits` below supplies a sufficient amount). -/
def natDigitsF : Nat → Nat → Str
  | 0, _ => []
  | f + 1, n => if n < 10 then [48 + n] else natDigitsF f (n / 10) ++ [48 + n % 10]

/-- Decimal digits of a natural number, most significant first. -/
def natDigits (n : Nat) : Str := natDigitsF (n + 1) n

/-- Decimal rendering of a Python int, `-` sign for negatives. -/
def intDumps (i : Int) : Str :=
  if i < 0 then 45 :: natDigits (-i).toNat else natDigits i.toNat

mutual

/-- `json.dumps(v, ensure_ascii=False)` as a list of code points. -/
def dumps : JVal → Str
  | .null => [110, 117, 108, 108]
  | .bool true => [116, 114, 117, 101]
  | .bool false => [102, 97, 108, 115, 101]
  | .int i => intDumps i
  | .str s => dumpStr s
  | .arr [] => [91, 93]
  | .arr (x :: xs) => 91 :: (dumps x ++ dumpsArrTail xs) ++ [93]
  | .obj [] => [123, 125]
  | .obj (kv :: kvs) => 123 :: (dumpsMember kv ++ dumpsObjTail kvs) ++ [125]

/-- The remaining array elements, each preceded by `", "`. -/
def dumpsArrTail : List JVal → Str
  | [] => []
  | x :: xs => 44 :: 32 :: dumps x ++ dumpsArrTail xs

/-- One object member, `"key": value`. -/
def dumpsMember : Str × JVal → Str
  | (k, v) => dumpStr k ++ 58 :: 32 :: dumps v

/-- The remaining object members, each preceded by `", "`. -/
def dumpsObjTail : List (Str × JVal) → Str
  | [] => []
  | kv :: kvs => 44 :: 32 :: dumpsMember kv ++ dumpsObjTail kvs

end

/-! ## UTF-8: `str.encode('utf-8')` and `bytes.decode('utf-8')`, strict -/

/-- The UTF-8 bytes of one code point.  CPython's `str.encode('utf-8')`
raises `UnicodeEncodeError` on surrogates `U+D800 .. U+DFFF` (and a `str`
never holds a code point above `U+10FFFF`). -/
def utf8Char (c : Nat) : Option Bytes :=
  if c < 128 then some [c]
  else if c < 2048 then some [192 + c / 64, 128 + c % 64]
  else if c < 55296 then some [224 + c / 4096, 128 + c / 64 % 64, 128 + c % 64]
  else if c < 57344 then none
  else if c < 65536 then some [224 + c / 4096, 128 + c / 64 % 64, 128 + c % 64]
  else if c < 1114112 then
    some [240 + c / 262144, 128 + c / 4096 % 64, 128 + c / 64 % 64, 128 + c % 64]
  else none

/-- `s.encode('utf-8')`. -/
def utf8Encode : Str → Option Bytes
  | [] => some []
  | c :: cs => do
    let b ← utf8Char c
    let bs ← utf8Encode cs
    pure (b ++ bs)

mutual

/-- `b.decode('utf-8')` in strict mode: rejects stray continuation bytes,
overlong encodings, surrogates and code points above `U+10FFFF`, exactly as
CPython does.  Lead bytes `0xC0`/`0xC1` would only start overlong two-byte
sequences, hence the `194` bound; overlong three- and four-byte sequences
and surrogates are caught by the range checks on the decoded value. -/
def utf8Decode : Bytes → Option Str
  | [] => some []
  | b :: bs =>
    if b < 128 then (b :: ·) <$> utf8Decode bs
    else if b < 194 then none
    else if b < 224 then utf8DecodeTwo b bs
    else if b < 240 then utf8DecodeThree b bs
    else if b < 245 then utf8DecodeFour b bs
    else none

/-- The continuation of a two-byte sequence with lead byte `b`. -/
def utf8DecodeTwo (b : Nat) : Bytes → Option Str
  | b1 :: bs =>
    if 128 ≤ b1 ∧ b1 < 192 then
      (((b - 192) * 64 + (b1 - 128)) :: ·) <$> utf8Decode bs
    else none
  | [] => none

/-- The continuation of a three-byte sequence with lead byte `b`. -/
def utf8DecodeThree (b : Nat) : Bytes → Option Str
  | b1 :: b2 :: bs =>
    if (128 ≤ b1 ∧ b1 < 192) ∧ (128 ≤ b2 ∧ b2 < 192) then
      if 2048 ≤ (b - 224) * 4096 + (b1 - 128) * 64 + (b2 - 128) ∧
          ¬(55296 ≤ (b - 224) * 4096 + (b1 - 128) * 64 + (b2 - 128) ∧
            (b - 224) * 4096 + (b1 - 128) * 64 + (b2 - 128) < 57344) then
        (((b - 224) * 4096 + (b1 - 128) * 64 + (b2 - 128)) :: ·) <$> utf8Decode bs
      else none
    else none
  | _ => none

/-- The continuation of a four-byte sequence with lead byte `b`. -/
def utf8DecodeFour (b : Nat) : Bytes → Option Str
  | b1 :: b2 :: b3 :: bs =>
    if (128 ≤ b1 ∧ b1 < 192) ∧ (128 ≤ b2 ∧ b2 < 192) ∧ (128 ≤ b3 ∧ b3 < 192) then
      if 65536 ≤ (b - 240) * 262144 + (b1 - 128) * 4096 + (b2 - 128) * 64 + (b3 - 128) ∧
          (b - 240) * 262144 + (b1 - 128) * 4096 + (b2 - 128) * 64 + (b3 - 128) < 1114112 then
        (((b - 240) * 262144 + (b1 - 128) * 4096 + (b2 - 128) * 64 + (b3 - 128)) :: ·) <$>
          utf8Decode bs
      else none
    else none
  | _ => none

end

/-! ## The parser: `json.loads`

A recursive-descent parser over code points, returning the parsed value and
the unconsumed remainder.  Recursion into subterms is paid for by a fuel
argument; `loads` supplies `length + 1` fuel, which the completeness lemma
below shows is enough for everything `dumps` writes.  Numbers follow the
JSON grammar for integers (no leading zeros); a fraction or exponent would
make CPython produce a float, which this model does not cover, so the
parser answers `none` there. -/

/-- JSON whitespace: space, tab, line feed, carriage return. -/
def isJsonWs (c : Nat) : Bool := c = 32 || c = 9 || c = 10 || c = 13

/-- Drop leading JSON whitespace. -/
def skipWs : Str → Str
  | [] => []
  | c :: r => if isJsonWs c then skipWs r else c :: r

/-- An ASCII decimal digit. -/
def isDigitCode (c : Nat) : Bool := 48 ≤ c && c ≤ 57

/-- The value of a hex digit code point, if it is one. -/
def hexVal (c : Nat) : Option Nat :=
  if 48 ≤ c ∧ c ≤ 57 then some (c - 48)
  else if 97 ≤ c ∧ c ≤ 102 then some (c - 87)
  else if 65 ≤ c ∧ c ≤ 70 then some (c - 55)
  else none

/-- The decoded character of a single-character escape `\e`, when `e` is
one of the eight such escapes. -/
def escVal (e : Nat) : Option Nat :=
  if e = 34 then some 34
  else if e = 92 then some 92
  else if e = 47 then some 47
  else if e = 98 then some 8
  else if e = 102 then some 12
  else if e = 110 then some 10
  else if e = 114 then some 13
  else if e = 116 then some 9
  else none

mutual

/-- The body of a JSON string literal, after the opening quote: the decoded
characters and the remainder after the closing quote.  Raw control
characters are rejected (CPython's default `strict=True`).  CPython
additionally pairs up adjacent surrogate `\uXXXX` escapes; `dumps` with
`ensure_ascii=False` only writes `\u00xy` for control characters, so that
refinement is not modelled. -/
def parseStrBody : Str → Option (Str × Str)
  | [] => none
  | c :: r =>
    if c = 34 then some ([], r)
    else if c = 92 then parseEsc r
    else if c < 32 then none
    else (fun p => (c :: p.1, p.2)) <$> parseStrBody r

/-- What follows a backslash inside a string literal. -/
def parseEsc : Str → Option (Str × Str)
  | [] => none
  | e :: r =>
    if e = 117 then parseUEsc r
    else
      match escVal e with
      | some d => (fun p => (d :: p.1, p.2)) <$> parseStrBody r
      | none => none

/-- The four hex digits of a `\uXXXX` escape. -/
def parseUEsc : Str → Option (Str × Str)
  | h1 :: h2 :: h3 :: h4 :: r => do
    let d1 ← hexVal h1
    let d2 ← hexVal h2
    let d3 ← hexVal h3
    let d4 ← hexVal h4
    (fun p => ((((d1 * 16 + d2) * 16 + d3) * 16 + d4) :: p.1, p.2)) <$> parseStrBody r
  | _ => none

end

/-- Leading decimal digits and the remainder. -/
def spanDigits : Str → Str × Str
  | [] => ([], [])
  | c :: r =>
    if isDigitCode c then
      let p := spanDigits r
      (c :: p.1, p.2)
    else ([], c :: r)

/-- The numeric value of a digit string. -/
def digitsVal (ds : Str) : Nat := ds.foldl (fun a d => a * 10 + (d - 48)) 0

/-- Does the string continue with a fraction point or exponent marker
(which would make CPython produce a float)? -/
def headFracExp : Str → Bool
  | [] => false
  | c :: _ => c = 46 || c = 101 || c = 69

/-- An unsigned JSON integer: digits without a leading zero, not followed
by a fraction or exponent (those would be floats, unmodelled). -/
def parseIntCore (t : Str) : Option (Nat × Str) :=
  match spanDigits t with
  | ([], _) => none
  | (d :: ds, r) =>
    if d = 48 ∧ ds ≠ [] then none
    else if headFracExp r then none
    else some (digitsVal (d :: ds), r)

/-- A JSON integer: optional minus sign, then `parseIntCore`. -/
def parseIntTok (s : Str) : Option (Int × Str) :=
  match s with
  | [] => none
  | c :: t =>
    if c = 45 then (fun p => (-(p.1 : Int), p.2)) <$> parseIntCore t
    else (fun p => ((p.1 : Int), p.2)) <$> parseIntCore (c :: t)

/-- The tail of the literal `null`, after its `n`. -/
def parseNullLit : Str → Option (JVal × Str)
  | 117 :: 108 :: 108 :: r => some (JVal.null, r)
  | _ => none

/-- The tail of the literal `true`, after its `t`. -/
def parseTrueLit : Str → Option (JVal × Str)
  | 114 :: 117 :: 101 :: r => some (JVal.bool true, r)
  | _ => none

/-- The tail of the literal `false`, after its `f`. -/
def parseFalseLit : Str → Option (JVal × Str)
  | 97 :: 108 :: 115 :: 101 :: r => some (JVal.bool false, r)
  | _ => none

/-- Python dict construction from parsed members: successive `d[k] = v`. -/
def pyDictFold (ms : List (Str × JVal)) : PyDict :=
  ms.foldl (fun d kv => pyAssign d kv.1 kv.2) []

mutual

/-- One JSON value, after skipping leading whitespace.  Every parsing
helper consumes one unit of fuel, which keeps the whole mutual group
structurally recursive on the fuel (so it computes inside the kernel);
`loads` supplies an amount that the completeness theorem shows sufficient
for everything `dumps` writes. -/
def parseVal : Nat → Str → Option (JVal × Str)
  | 0, _ => none
  | f + 1, s => parseValCore f (skipWs s)

/-- Dispatch on the first significant character. -/
def parseValCore : Nat → Str → Option (JVal × Str)
  | 0, _ => none
  | _ + 1, [] => none
  | f + 1, c :: r =>
    if c = 34 then (fun p => (JVal.str p.1, p.2)) <$> parseStrBody r
    else if c = 91 then parseArrOpen f (skipWs r)
    else if c = 123 then parseObjOpen f (skipWs r)
    else if c = 110 then parseNullLit r
    else if c = 116 then parseTrueLit r
    else if c = 102 then parseFalseLit r
    else (fun p => (JVal.int p.1, p.2)) <$> parseIntTok (c :: r)

/-- After `[`: an empty array, or its elements. -/
def parseArrOpen : Nat → Str → Option (JVal × Str)
  | 0, _ => none
  | _ + 1, [] => none
  | f + 1, c :: r =>
    if c = 93 then some (JVal.arr [], r)
    else (fun p => (JVal.arr p.1, p.2)) <$> parseItems f (c :: r)

/-- After `\x7b`: an empty object, or its members, folded into a dict as
CPython builds it. -/
def parseObjOpen : Nat → Str → Option (JVal × Str)
  | 0, _ => none
  | _ + 1, [] => none
  | f + 1, c :: r =>
    if c = 125 then some (JVal.obj [], r)
    else (fun p => (JVal.obj (pyDictFold p.1), p.2)) <$> parseMembers f (c :: r)

/-- One or more array elements followed by `]`. -/
def parseItems : Nat → Str → Option (List JVal × Str)
  | 0, _ => none
  | f + 1, s => parseItemsCont f (parseVal f s)

/-- The separator after a parsed element. -/
def parseItemsCont : Nat → Option (JVal × Str) → Option (List JVal × Str)
  | 0, _ => none
  | _ + 1, none => none
  | f + 1, some (v, r) => parseItemsSep f v (skipWs r)

/-- `,` continues the element list; `]` closes it. -/
def parseItemsSep : Nat → JVal → Str → Option (List JVal × Str)
  | 0, _, _ => none
  | f + 1, v, 44 :: r => (fun p => (v :: p.1, p.2)) <$> parseItems f r
  | _ + 1, v, 93 :: r => some ([v], r)
  | _ + 1, _, _ => none

/-- One or more object members followed by `\x7d`. -/
def parseMembers : Nat → Str → Option (List (Str × JVal) × Str)
  | 0, _ => none
  | f + 1, s => parseMemKey f (skipWs s)

/-- A member starts with a string key. -/
def parseMemKey : Nat → Str → Option (List (Str × JVal) × Str)
  | 0, _ => none
  | f + 1, 34 :: r => parseMemColon f (parseStrBody r)
  | _ + 1, _ => none

/-- After the key: expect `:` and then the value. -/
def parseMemColon : Nat → Option (Str × Str) → Option (List (Str × JVal) × Str)
  | 0, _ => none
  | _ + 1, none => none
  | f + 1, some (k, r1) => parseMemValue f k (skipWs r1)

/-- The `:` separator, then the member value. -/
def parseMemValue : Nat → Str → Str → Option (List (Str × JVal) × Str)
  | 0, _, _ => none
  | f + 1, k, 58 :: r2 => parseMemCont f k (parseVal f r2)
  | _ + 1, _, _ => none

/-- The separator after a parsed member value. -/
def parseMemCont : Nat → Str → Option (JVal × Str) → Option (List (Str × JVal) × Str)
  | 0, _, _ => none
  | _ + 1, _, none => none
  | f + 1, k, some (v, r3) => parseMemSep f k v (skipWs r3)

/-- `,` continues the member list; `\x7d` closes it. -/
def parseMemSep : Nat → Str → JVal → Str → Option (List (Str × JVal) × Str)
  | 0, _, _, _ => none
  | f + 1, k, v, 44 :: r4 => (fun p => ((k, v) :: p.1, p.2)) <$> parseMembers f r4
  | _ + 1, k, v, 125 :: r4 => some ([(k, v)], r4)
  | _ + 1, _, _, _ => none

end

/-- `json.loads(s)`: parse one value and insist nothing but whitespace
follows. -/
def loads (s : Str) : Option JVal :=
  match parseVal (8 * s.length + 8) s with
  | some (v, rest) => if skipWs rest = [] then some v else none
  | none => none

/-! ## `struct` with format `'>L'` (4-byte big-endian unsigned) -/

/-- The four big-endian bytes of `n % 2^32`. -/
def beBytes (n : Nat) : Bytes :=
  [n / 16777216 % 256, n / 65536 % 256, n / 256 % 256, n % 256]

/-- The big-endian value of four bytes (0 on other lengths; only reached
under a length guard). -/
def beValue : Bytes → Nat
  | [a, b, c, d] => ((a * 256 + b) * 256 + c) * 256 + d
  | _ => 0

/-- `struct.pack('>L', n)`: `struct.error` when `n` does not fit. -/
def structPackL (n : Nat) : Except PyErr Bytes :=
  if n < 4294967296 then .ok (beBytes n) else .error .structError

/-- `struct.unpack('>L', b)[0]`: `struct.error` unless `b` is exactly 4
bytes. -/
def structUnpackL (b : Bytes) : Except PyErr Nat :=
  if b.length = 4 then .ok (beValue b) else .error .structError

/-! ## Python slicing on bytes -/

/-- `l[a:b]` for natural indices: clamped to the length, empty when the
range is reversed.  This is Python's slice semantics restricted to
non-negative indices. -/
def pySliceN (l : Bytes) (a b : Nat) : Bytes := (l.drop a).take (b - a)

/-- `l[a:b]` with Python's full index semantics: a negative index counts
from the end, everything clamps, a reversed range is empty. -/
def pySliceI (l : Bytes) (a b : Int) : Bytes :=
  let n : Int := l.length
  let a' : Int := if a < 0 then max 0 (n + a) else min a n
  let b' : Int := if b < 0 then max 0 (n + b) else min b n
  ((l.drop a'.toNat).take (b' - a').toNat)

/-! ## `DataBlock` and the codec of `src/protocol.py`

The class stores `name` (a `str`), `data` (`bytes`), `encoding`
(`Optional[str]`) and `size`, which the constructor always sets to
`len(data)`, so `size` is modelled as a derived field. -/

/-- A `DataBlock` as constructed by `DataBlock.__init__`. -/
structure DataBlock where
  name : Str
  data : Bytes
  encoding : Option Str
deriving DecidableEq, Repr

/-- `self.size`, set by the constructor to `len(data)`. -/
def DataBlock.size (b : DataBlock) : Nat := b.data.length

/-- The reserved protocol key `'data_blocks'`. -/
def DATABLOCK_KEY : Str := strCodes "data_blocks"

/-- `DataBlock.metadata()`: name and size, plus the encoding only when it
is truthy (`if self.encoding:` — `None` and the empty string are falsy). -/
def DataBlock.metadata (b : DataBlock) : PyDict :=
  [(strCodes "name", .str b.name), (strCodes "size", .int b.data.length)] ++
    (match b.encoding with
    | some e => if e = [] then [] else [(strCodes "encoding", .str e)]
    | none => [])

/-- The metadata list built by `package`'s loop: `data[DATABLOCK_KEY]`
starts as `[]` and one `metadata()` dict is appended per block. -/
def metaList (blocks : List DataBlock) : JVal :=
  .arr (blocks.map (fun b => .obj b.metadata))

/-- `package(data, data_blocks)` from `src/protocol.py` at the default
`header_fmt='>L'` and `encoding='utf-8'` (the `errors` parameter is
accepted but never used by that function).  The first component is the
returned byte string or the raised exception; the second is the final
state of the caller-supplied dict, which the function mutates in place. -/
def package (data : PyDict) (data_blocks : List DataBlock) :
    Except PyErr Bytes × PyDict :=
  if pyContains data DATABLOCK_KEY then (.error .valueError, data)
  else
    -- `data[DATABLOCK_KEY] = []` only when there is at least one block,
    -- then one `append` per block: net effect, one new key at the end.
    let data' :=
      if 0 < data_blocks.length then data ++ [(DATABLOCK_KEY, metaList data_blocks)]
      else data
    let data_block_bytes := (data_blocks.map (fun b => b.data)).flatten
    let data_str := dumps (.obj data')
    match utf8Encode data_str with
    | none => (.error .unicodeEncodeError, data')
    | some data_bytes =>
      match structPackL data_bytes.length with
      | .error e => (.error e, data')
      | .ok header_bytes => (.ok (header_bytes ++ data_bytes ++ data_block_bytes), data')

/-- How `unpackage` reads the optional `encoding` entry of one metadata
dict: `metadata['encoding'] if 'encoding' in metadata else None`.  The
value is required to have the type the `DataBlock` class declares
(`Optional[str]`). -/
def unpackEnc (md : PyDict) : Except PyErr (Option Str) :=
  match pyGet md (strCodes "encoding") with
  | .ok (.str e) => .ok (some e)
  | .ok _ => .error .typeError
  | .error _ => .ok none

/-- Prepend the block sliced at the running offset to the blocks recovered
behind it. -/
def unpackCons (data : Bytes) (block_start : Int) (nm : Str) (sz : Int)
    (enc : Option Str) :
    Except PyErr (List DataBlock) → Except PyErr (List DataBlock)
  | .ok blks => .ok (⟨nm, pySliceI data block_start (block_start + sz), enc⟩ :: blks)
  | .error e => .error e

/-- The loop of `unpackage` over the declared metadata entries: each block
is sliced at the running offset `block_start`, which then advances by the
declared size.  Every entry must be a dict (else `TypeError`);
`metadata['name']` and `metadata['size']` raise `KeyError` when absent; a
non-integer size would make the slice arithmetic raise `TypeError`, and
`name`/`encoding` must have the types the `DataBlock` class declares
(`str` / `Optional[str]`). -/
def unpackBlocks (data : Bytes) : Int → List JVal → Except PyErr (List DataBlock)
  | _, [] => .ok []
  | block_start, .obj md :: rest =>
    (match pyGet md (strCodes "name"), pyGet md (strCodes "size") with
    | .ok (.str nm), .ok (.int sz) =>
      (match unpackEnc md with
      | .ok enc => unpackCons data block_start nm sz enc
          (unpackBlocks data (block_start + sz) rest)
      | .error e => .error e)
    | .ok _, .ok _ => .error .typeError
    | .error e, _ => .error e
    | .ok _, .error e => .error e)
  | _, _ :: _ => .error .typeError

/-- Pair the recovered blocks with the dict, reserved key removed. -/
def unpackFinish (dd : PyDict) :
    Except PyErr (List DataBlock) → Except PyErr (PyDict × List DataBlock)
  | .ok blocks => .ok (pyDelete dd DATABLOCK_KEY, blocks)
  | .error e => .error e

/-- The tail of `unpackage` once the frame's JSON parsed to a dict: if the
reserved key is present its value must be a list of metadata entries, and
the reserved key is removed from the returned dict. -/
def unpackMetas (data : Bytes) (header_value : Nat) (dd : PyDict) :
    Except PyErr JVal → Except PyErr (PyDict × List DataBlock)
  | .ok (.arr metas) =>
    unpackFinish dd (unpackBlocks data (4 + (header_value : Int)) metas)
  | .ok _ => .error .typeError
  | .error e => .error e

/-- The tail of `unpackage` after JSON parsing.  The document must be an
object for the `DATABLOCK_KEY in data_dict` test and the deletion to make
sense; on other JSON values the model answers `TypeError`. -/
def unpackDoc (data : Bytes) (header_value : Nat) :
    Option JVal → Except PyErr (PyDict × List DataBlock)
  | none => .error .jsonDecodeError
  | some (.obj dd) =>
    if pyContains dd DATABLOCK_KEY then
      unpackMetas data header_value dd (pyGet dd DATABLOCK_KEY)
    else .ok (dd, [])
  | some _ => .error .typeError

/-- The tail of `unpackage` after the header: slice the JSON segment,
decode it as UTF-8, parse it. -/
def unpackJson (data : Bytes) (header_value : Nat) :
    Option Str → Except PyErr (PyDict × List DataBlock)
  | none => .error .unicodeDecodeError
  | some data_str => unpackDoc data header_value (loads data_str)

/-- Branch on the header unpacking result. -/
def unpackHeader (data : Bytes) :
    Except PyErr Nat → Except PyErr (PyDict × List DataBlock)
  | .error e => .error e
  | .ok header_value =>
    unpackJson data header_value (utf8Decode (pySliceN data 4 (4 + header_value)))

/-- `unpackage(data)` from `src/protocol.py` at the defaults
(`header_fmt='>L'`, so `header_size = struct.calcsize('>L') = 4`, and
`encoding='utf-8'`; the `errors` parameter is accepted but never passed
on). -/
def unpackage (data : Bytes) : Except PyErr (PyDict × List DataBlock) :=
  unpackHeader data (structUnpackL (data.take 4))

/-! ## The codec of `src/json_network/protocol.py`

Both `package` and `unpackage` in that file begin with

    error = error if error in ['strict', 'replace', 'ignore'] else 'strict'

The parameter is named `errors`, not `error`, so the conditional reads the
local variable `error` before any assignment to it: CPython raises
`UnboundLocalError` on this line, on every call and for every argument
value.  Nothing after it can run (and had it run, the later
`.encode(encoding=encoding, error=error)` / `.decode(encoding, error=error)`
calls pass an `error` keyword that `str.encode` / `bytes.decode` do not
accept, a `TypeError`). -/

/-- The validation line shared by `package` and `unpackage` in
`src/json_network/protocol.py`: it reads the unassigned local `error`, so
it raises `UnboundLocalError` whatever `errors` holds. -/
def jnValidatePolicy (_errors : Str) : Except PyErr Str :=
  .error .unboundLocalError

/-- `package` from `src/json_network/protocol.py`.  The first line always
raises, so the body after it is dead; were it reached, it would stop at
the `data_str.encode(encoding=encoding, error=error)` call, whose `error`
keyword raises `TypeError`, with the metadata already inserted into the
caller's dict. -/
def jnPackage (data : PyDict) (data_blocks : List DataBlock) (errors : Str) :
    Except PyErr Bytes × PyDict :=
  match jnValidatePolicy errors with
  | .error e => (.error e, data)
  | .ok _ =>
    if pyContains data DATABLOCK_KEY then (.error .valueError, data)
    else
      let data' :=
        if 0 < data_blocks.length then data ++ [(DATABLOCK_KEY, metaList data_blocks)]
        else data
      (.error .typeError, data')

/-- `unpackage` from `src/json_network/protocol.py`.  The first line always
raises, so the rest of the body is dead; were it reached, the
`data_bytes.decode(encoding, error=error)` call's `error` keyword would
raise `TypeError`. -/
def jnUnpackage (data : Bytes) (errors : Str) :
    Except PyErr (PyDict × List DataBlock) :=
  match jnValidatePolicy errors with
  | .error e => .error e
  | .ok _ => do
    let _ ← structUnpackL (data.take 4)
    .error .typeError

/-! ## `serialize` / `deserialize`

Modelled from the spec: `json_network/__init__.py` imports `serialize`,
`deserialize`, `DATA_DICT_KEY`, `DATA_BLOCK_KEY` from `.protocol`, and
`network.py` calls `protocol.serialize` / `protocol.deserialize`, but the
revision of the protocol module defining them is not among the sources.
Per the spec: the serializer "builds a serialization object containing the
message under its own key and, only if `blocks` is non-empty, a list of
per-block metadata (`name`, `size`, `encoding` when present) under the
reserved key", frames it like `package`; the deserializer "extracts the
message from its key (empty mapping if absent)".  The concrete spelling of
the message key is not in the sources; a fixed constant distinct from the
block key stands for it. -/
def DATA_DICT_KEY : Str := strCodes "data_dict"

/-- Modelled from the spec: the serialization object of `serialize` — the
caller's message under the protocol's message key, and the block metadata
list under the reserved key only when there are blocks. -/
def serObj (message : PyDict) (blocks : List DataBlock) : PyDict :=
  (DATA_DICT_KEY, .obj message) ::
    (if blocks.isEmpty then [] else [(DATABLOCK_KEY, metaList blocks)])

/-- Modelled from the spec: `serialize(message, blocks)` frames the
serialization object exactly as `package` frames its dict. -/
def serialize (message : PyDict) (blocks : List DataBlock) : Except PyErr Bytes :=
  let data_block_bytes := (blocks.map (fun b => b.data)).flatten
  match utf8Encode (dumps (.obj (serObj message blocks))) with
  | none => .error .unicodeEncodeError
  | some data_bytes =>
    match structPackL data_bytes.length with
    | .error e => .error e
    | .ok header_bytes => .ok (header_bytes ++ data_bytes ++ data_block_bytes)

/-- Modelled from the spec: how `deserialize` extracts the message from the
parsed top-level object — the value under the message key, or an empty
mapping when the key is absent. -/
def deserializeMsg (dd : PyDict) : PyDict :=
  match pyGet dd DATA_DICT_KEY with
  | .ok (.obj m) => m
  | _ => []

/-- Modelled from the spec: `deserialize(data)` — frame parsing as in
`unpackage`, message extraction through `deserializeMsg`, blocks from the
reserved key's metadata as in `unpackage`. -/
def deserialize (data : Bytes) : Except PyErr (PyDict × List DataBlock) := do
  let header_value ← structUnpackL (data.take 4)
  let data_str ←
    match utf8Decode (pySliceN data 4 (4 + header_value)) with
    | some s => Except.ok s
    | none => Except.error PyErr.unicodeDecodeError
  let data_dict ←
    match loads data_str with
    | some v => Except.ok v
    | none => Except.error PyErr.jsonDecodeError
  match data_dict with
  | .obj dd =>
    if pyContains dd DATABLOCK_KEY then do
      let metasV ← pyGet dd DATABLOCK_KEY
      match metasV with
      | .arr metas => do
        let blocks ← unpackBlocks data (4 + (header_value : Int)) metas
        pure (deserializeMsg dd, blocks)
      | _ => .error .typeError
    else pure (deserializeMsg dd, [])
  | _ => .error .typeError

/-! ## The outbound queue and `Endpoint.close()`

`Endpoint` (in `src/json_network/network.py`) owns `send_queue`, a
`queue.Queue`.  A `Queue` keeps a count of unfinished tasks: `put`
increments it, and only `task_done()` decrements it; `join()` returns when
the count is zero.  The state below carries the queued items and that
count.  `_send_loop` repeatedly calls `send_queue.get()` — which removes
the front item and does not touch the count — breaks on the `None`
sentinel, and sends otherwise; its body contains no `task_done()` call.
`close()` runs `send_queue.put(None)` and then `send_queue.join()`. -/

/-- The state of a `queue.Queue`: queued items (front first) and the
unfinished-task count. -/
structure QueueState (α : Type) where
  items : List (Option α)
  unfinished : Nat
deriving Repr

/-- `Queue.put(x)`: appends the item and increments the unfinished-task
count. -/
def queuePut {α : Type} (q : QueueState α) (x : Option α) : QueueState α :=
  ⟨q.items ++ [x], q.unfinished + 1⟩

/-- `Queue.join()` returns exactly when the unfinished-task count is
zero. -/
def joinReturns {α : Type} (q : QueueState α) : Prop := q.unfinished = 0

/-- One iteration of `Endpoint._send_loop` as it acts on the queue: `get()`
removes the front item; whether the body then sends the package or breaks
on the sentinel, it never calls `task_done()`, so the unfinished-task count
is unchanged. -/
inductive SendLoopStep {α : Type} : QueueState α → QueueState α → Prop where
  | get (x : Option α) (rest : List (Option α)) (u : Nat) :
      SendLoopStep ⟨x :: rest, u⟩ ⟨rest, u⟩

/-- Any number of `_send_loop` iterations. -/
def SendLoopRun {α : Type} : QueueState α → QueueState α → Prop :=
  Relation.ReflTransGen SendLoopStep

/-- The remainder may directly follow a JSON number without extending it:
it does not continue with a digit, a decimal point or an exponent marker.
Inside arrays and objects the remainder continues with `,`, `]` or `}`, and
at the top level of a dumped document it is empty. -/
def numBoundary : Str → Bool
  | [] => true
  | c :: _ => !isDigitCode c && c != 46 && c != 101 && c != 69

/-! ## The slicing rule as the specification words it

Typed metadata entries (declared name, declared size, optional declared
encoding) stand for the dicts of the reserved key's list, and
`specSliceBlocks` cuts the buffer exactly as the spec describes the running
offset.  `unpackBlocks` is compared against it. -/

/-- A typed metadata entry written as the JSON dict `unpackage` iterates
over: `name`, `size`, and `encoding` when declared. -/
def metaObjOf : Str × Nat × Option Str → JVal
  | (nm, sz, enc) =>
    .obj ([(strCodes "name", .str nm), (strCodes "size", .int sz)] ++
      (match enc with
      | some e => [(strCodes "encoding", .str e)]
      | none => []))

/-- The sum of the declared sizes of a list of entries. -/
def sumSizes : List (Str × Nat × Option Str) → Nat
  | [] => 0
  | (_, sz, _) :: rest => sz + sumSizes rest

/-- The specification's slicing rule: block `i` is cut at the running
offset advanced by the declared sizes of the blocks before it, with its
declared size as the length, in list order. -/
def specSliceBlocks (data : Bytes) : Int → List (Str × Nat × Option Str) → List DataBlock
  | _, [] => []
  | start, (nm, sz, enc) :: rest =>
    ⟨nm, pySliceI data start (start + (sz : Int)), enc⟩ ::
      specSliceBlocks data (start + (sz : Int)) rest

/-! # Theorems

First, decidability of `JVal` equality (used by the concrete witnesses and
counterexamples), then the lemma layer for the codec round-trip, then one
theorem per claim of the specification. -/

mutual

/-- `JVal.beq` decides equality. -/
theorem JVal.beq_iff : ∀ a b : JVal, JVal.beq a b = true ↔ a = b
  | .null, .null => by simp [JVal.beq]
  | .bool _, .bool _ => by simp [JVal.beq]
  | .int _, .int _ => by simp [JVal.beq]
  | .str _, .str _ => by simp [JVal.beq]
  | .arr a, .arr b => by simp [JVal.beq, JVal.beqList_iff a b]
  | .obj a, .obj b => by simp [JVal.beq, JVal.beqMembers_iff a b]
  | .null, .bool _ | .null, .int _ | .null, .str _ | .null, .arr _ | .null, .obj _
  | .bool _, .null | .bool _, .int _ | .bool _, .str _ | .bool _, .arr _ | .bool _, .obj _
  | .int _, .null | .int _, .bool _ | .int _, .str _ | .int _, .arr _ | .int _, .obj _
  | .str _, .null | .str _, .bool _ | .str _, .int _ | .str _, .arr _ | .str _, .obj _
  | .arr _, .null | .arr _, .bool _ | .arr _, .int _ | .arr _, .str _ | .arr _, .obj _
  | .obj _, .null | .obj _, .bool _ | .obj _, .int _ | .obj _, .str _ | .obj _, .arr _ =>
    by simp [JVal.beq]

/-- `JVal.beqList` decides equality of value lists. -/
theorem JVal.beqList_iff : ∀ a b : List JVal, JVal.beqList a b = true ↔ a = b
  | [], [] => by simp [JVal.beqList]
  | x :: xs, y :: ys => by
    simp [JVal.beqList, JVal.beq_iff x y, JVal.beqList_iff xs ys]
  | [], _ :: _ => by simp [JVal.beqList]
  | _ :: _, [] => by simp [JVal.beqList]

/-- `JVal.beqMembers` decides equality of member lists. -/
theorem JVal.beqMembers_iff : ∀ a b : List (Str × JVal), JVal.beqMembers a b = true ↔ a = b
  | [], [] => by simp [JVal.beqMembers]
  | (k, v) :: xs, (l, w) :: ys => by
    simp [JVal.beqMembers, JVal.beq_iff v w, JVal.beqMembers_iff xs ys, Prod.ext_iff,
      and_assoc]
  | [], _ :: _ => by simp [JVal.beqMembers]
  | _ :: _, [] => by simp [JVal.beqMembers]

end

instance : DecidableEq JVal := fun a b => decidable_of_iff _ (JVal.beq_iff a b)

instance {ε α : Type} [DecidableEq ε] [DecidableEq α] : DecidableEq (Except ε α) :=
  fun x y =>
    match x, y with
    | .ok a, .ok b => decidable_of_iff (a = b) (by simp)
    | .error a, .error b => decidable_of_iff (a = b) (by simp)
    | .ok _, .error _ => isFalse (fun h => Except.noConfusion h)
    | .error _, .ok _ => isFalse (fun h => Except.noConfusion h)

/-! ## UTF-8 round-trip -/

/-- Decoding after the bytes of one encoded character resumes behind it. -/
theorem utf8Char_decode (c : Nat) (bv rest : Bytes) (h : utf8Char c = some bv) :
    utf8Decode (bv ++ rest) = (fun t => c :: t) <$> utf8Decode rest := by
  unfold utf8Char at h
  by_cases h1 : c < 128
  · rw [if_pos h1] at h
    cases h
    show utf8Decode (c :: rest) = _
    rw [utf8Decode, if_pos h1]
  · rw [if_neg h1] at h
    by_cases h2 : c < 2048
    · rw [if_pos h2] at h
      cases h
      show utf8Decode ((192 + c / 64) :: (128 + c % 64) :: rest) = _
      rw [utf8Decode, if_neg (by omega), if_neg (by omega), if_pos (by omega),
        utf8DecodeTwo, if_pos (by omega : 128 ≤ 128 + c % 64 ∧ 128 + c % 64 < 192)]
      have hv : (192 + c / 64 - 192) * 64 + (128 + c % 64 - 128) = c := by omega
      rw [hv]
    · rw [if_neg h2] at h
      by_cases h3 : c < 55296
      · rw [if_pos h3] at h
        cases h
        show utf8Decode ((224 + c / 4096) :: (128 + c / 64 % 64) :: (128 + c % 64) :: rest) = _
        rw [utf8Decode, if_neg (by omega), if_neg (by omega), if_neg (by omega),
          if_pos (by omega), utf8DecodeThree,
          if_pos (by omega :
            (128 ≤ 128 + c / 64 % 64 ∧ 128 + c / 64 % 64 < 192) ∧
              128 ≤ 128 + c % 64 ∧ 128 + c % 64 < 192)]
        have hv : (224 + c / 4096 - 224) * 4096 + (128 + c / 64 % 64 - 128) * 64 +
            (128 + c % 64 - 128) = c := by omega
        rw [hv, if_pos (by omega)]
      · rw [if_neg h3] at h
        by_cases h4 : c < 57344
        · rw [if_pos h4] at h
          cases h
        · rw [if_neg h4] at h
          by_cases h5 : c < 65536
          · rw [if_pos h5] at h
            cases h
            show utf8Decode
              ((224 + c / 4096) :: (128 + c / 64 % 64) :: (128 + c % 64) :: rest) = _
            rw [utf8Decode, if_neg (by omega), if_neg (by omega), if_neg (by omega),
              if_pos (by omega), utf8DecodeThree,
              if_pos (by omega :
                (128 ≤ 128 + c / 64 % 64 ∧ 128 + c / 64 % 64 < 192) ∧
                  128 ≤ 128 + c % 64 ∧ 128 + c % 64 < 192)]
            have hv : (224 + c / 4096 - 224) * 4096 + (128 + c / 64 % 64 - 128) * 64 +
                (128 + c % 64 - 128) = c := by omega
            rw [hv, if_pos (by omega)]
          · rw [if_neg h5] at h
            by_cases h6 : c < 1114112
            · rw [if_pos h6] at h
              cases h
              show utf8Decode ((240 + c / 262144) :: (128 + c / 4096 % 64) ::
                (128 + c / 64 % 64) :: (128 + c % 64) :: rest) = _
              rw [utf8Decode, if_neg (by omega), if_neg (by omega), if_neg (by omega),
                if_neg (by omega), if_pos (by omega), utf8DecodeFour,
                if_pos (by omega :
                  (128 ≤ 128 + c / 4096 % 64 ∧ 128 + c / 4096 % 64 < 192) ∧
                    (128 ≤ 128 + c / 64 % 64 ∧ 128 + c / 64 % 64 < 192) ∧
                      128 ≤ 128 + c % 64 ∧ 128 + c % 64 < 192)]
              have hv : (240 + c / 262144 - 240) * 262144 + (128 + c / 4096 % 64 - 128) * 4096 +
                  (128 + c / 64 % 64 - 128) * 64 + (128 + c % 64 - 128) = c := by omega
              rw [hv, if_pos (by omega)]
            · rw [if_neg h6] at h
              cases h

/-- Decoding after an encoded string resumes behind it. -/
theorem utf8Encode_decode (s : Str) (bs rest : Bytes) (h : utf8Encode s = some bs) :
    utf8Decode (bs ++ rest) = (fun t => s ++ t) <$> utf8Decode rest := by
  induction s generalizing bs with
  | nil =>
    cases h
    simp
  | cons c cs ih =>
    simp only [utf8Encode, Option.bind_eq_bind, Option.bind_eq_some] at h
    obtain ⟨bv, hbv, bs', hbs', hb⟩ := h
    cases hb
    rw [List.append_assoc, utf8Char_decode c bv _ hbv, ih bs' hbs']
    cases utf8Decode rest <;> simp

/-- The UTF-8 round-trip: what `encode` produced, `decode` reads back. -/
theorem utf8Decode_encode (s : Str) (bs : Bytes) (h : utf8Encode s = some bs) :
    utf8Decode bs = some s := by
  have := utf8Encode_decode s bs [] h
  simpa [utf8Decode] using this

/-! ## String literals round-trip -/

/-- Decoding a hex digit written by `hexDigitCode`. -/
theorem hexVal_hexDigitCode : ∀ d < 16, hexVal (hexDigitCode d) = some d := by decide

/-- The body parser reads back exactly what `escapeChar` wrote, for every
character of the string. -/
theorem parseStrBody_escape (s rest : Str) :
    parseStrBody (s.flatMap escapeChar ++ 34 :: rest) = some (s, rest) := by
  induction s with
  | nil =>
    rw [List.flatMap_nil, List.nil_append, parseStrBody, if_pos rfl]
  | cons c cs ih =>
    rw [List.flatMap_cons, List.append_assoc]
    by_cases h34 : c = 34
    · subst h34
      rw [show escapeChar 34 = [92, 34] from rfl]
      simp only [List.cons_append, List.nil_append]
      rw [parseStrBody, if_neg (by decide), if_pos rfl]
      simp [parseEsc, escVal, ih]
    · by_cases h92 : c = 92
      · subst h92
        rw [show escapeChar 92 = [92, 92] from rfl]
        simp only [List.cons_append, List.nil_append]
        rw [parseStrBody, if_neg (by decide), if_pos rfl]
        simp [parseEsc, escVal, ih]
      · by_cases h8 : c = 8
        · subst h8
          rw [show escapeChar 8 = [92, 98] from rfl]
          simp only [List.cons_append, List.nil_append]
          rw [parseStrBody, if_neg (by decide), if_pos rfl]
          simp [parseEsc, escVal, ih]
        · by_cases h9 : c = 9
          · subst h9
            rw [show escapeChar 9 = [92, 116] from rfl]
            simp only [List.cons_append, List.nil_append]
            rw [parseStrBody, if_neg (by decide), if_pos rfl]
            simp [parseEsc, escVal, ih]
          · by_cases h10 : c = 10
            · subst h10
              rw [show escapeChar 10 = [92, 110] from rfl]
              simp only [List.cons_append, List.nil_append]
              rw [parseStrBody, if_neg (by decide), if_pos rfl]
              simp [parseEsc, escVal, ih]
            · by_cases h12 : c = 12
              · subst h12
                rw [show escapeChar 12 = [92, 102] from rfl]
                simp only [List.cons_append, List.nil_append]
                rw [parseStrBody, if_neg (by decide), if_pos rfl]
                simp [parseEsc, escVal, ih]
              · by_cases h13 : c = 13
                · subst h13
                  rw [show escapeChar 13 = [92, 114] from rfl]
                  simp only [List.cons_append, List.nil_append]
                  rw [parseStrBody, if_neg (by decide), if_pos rfl]
                  simp [parseEsc, escVal, ih]
                · by_cases hctl : c < 32
                  · have hec : escapeChar c =
                        [92, 117, 48, 48, hexDigitCode (c / 16), hexDigitCode (c % 16)] := by
                      unfold escapeChar
                      rw [if_neg h34, if_neg h92, if_neg h8, if_neg h9, if_neg h10,
                        if_neg h12, if_neg h13, if_pos hctl]
                    rw [hec]
                    simp only [List.cons_append, List.nil_append]
                    rw [parseStrBody, if_neg (by decide), if_pos rfl, parseEsc, if_pos rfl,
                      parseUEsc]
                    rw [show hexVal 48 = some 0 from rfl,
                      hexVal_hexDigitCode (c / 16) (by omega),
                      hexVal_hexDigitCode (c % 16) (by omega)]
                    simp only [Option.bind_eq_bind, Option.some_bind, ih, Option.map_some]
                    have hv : (((0 * 16 + 0) * 16 + c / 16) * 16 + c % 16) = c := by omega
                    rw [hv]
                  · have hec : escapeChar c = [c] := by
                      unfold escapeChar
                      rw [if_neg h34, if_neg h92, if_neg h8, if_neg h9, if_neg h10,
                        if_neg h12, if_neg h13, if_neg hctl]
                    rw [hec]
                    simp only [List.cons_append, List.nil_append]
                    rw [parseStrBody, if_neg h34, if_neg h92, if_neg (by omega)]
                    simp [ih]

/-! ## Numbers round-trip -/

/-- With enough fuel, the fuel amount does not matter. -/
theorem natDigitsF_fuel (n : Nat) : ∀ f g, n < f → n < g →
    natDigitsF f n = natDigitsF g n := by
  induction n using Nat.strong_induction_on with
  | _ n ih =>
    intro f g hf hg
    obtain ⟨f1, rfl⟩ : ∃ f1, f = f1 + 1 := ⟨f - 1, by omega⟩
    obtain ⟨g1, rfl⟩ : ∃ g1, g = g1 + 1 := ⟨g - 1, by omega⟩
    rw [natDigitsF, natDigitsF]
    by_cases h : n < 10
    · rw [if_pos h, if_pos h]
    · rw [if_neg h, if_neg h, ih (n / 10) (by omega) f1 g1 (by omega) (by omega)]

/-- The recurrence `natDigits` satisfies. -/
theorem natDigits_eq (n : Nat) :
    natDigits n = if n < 10 then [48 + n] else natDigits (n / 10) ++ [48 + n % 10] := by
  rw [natDigits, natDigitsF]
  by_cases h : n < 10
  · rw [if_pos h, if_pos h]
  · rw [if_neg h, if_neg h,
      natDigitsF_fuel (n / 10) n (n / 10 + 1) (by omega) (by omega)]
    rfl

/-- Every code point `natDigits` writes is a decimal digit. -/
theorem natDigits_digits (n : Nat) : ∀ d ∈ natDigits n, isDigitCode d = true := by
  induction n using Nat.strong_induction_on with
  | _ n ih =>
    rw [natDigits_eq]
    by_cases h : n < 10
    · rw [if_pos h]
      intro d hd
      simp only [List.mem_singleton] at hd
      subst hd
      simp [isDigitCode]
      omega
    · rw [if_neg h]
      intro d hd
      rcases List.mem_append.mp hd with h1 | h2
      · exact ih (n / 10) (by omega) d h1
      · simp only [List.mem_singleton] at h2
        subst h2
        simp [isDigitCode]
        omega

/-- `natDigits` never writes an empty digit string. -/
theorem natDigits_ne_nil (n : Nat) : natDigits n ≠ [] := by
  induction n using Nat.strong_induction_on with
  | _ n ih =>
    rw [natDigits_eq]
    by_cases h : n < 10
    · rw [if_pos h]
      simp
    · rw [if_neg h]
      simp [ih (n / 10) (by omega)]

/-- A positive number is written without a leading zero. -/
theorem natDigits_head_ne_zero (n : Nat) (hn : 1 ≤ n) :
    ∀ d ds, natDigits n = d :: ds → d ≠ 48 := by
  induction n using Nat.strong_induction_on with
  | _ n ih =>
    rw [natDigits_eq]
    by_cases h : n < 10
    · rw [if_pos h]
      intro d ds hd
      cases hd
      omega
    · rw [if_neg h]
      intro d ds hd
      obtain ⟨e, es, hes⟩ := List.exists_cons_of_ne_nil (natDigits_ne_nil (n / 10))
      rw [hes] at hd
      cases hd
      exact ih (n / 10) (by omega) (by omega) _ _ hes

/-- A one-digit number is written as one digit. -/
theorem natDigits_single (n : Nat) (h : n < 10) : natDigits n = [48 + n] := by
  rw [natDigits_eq, if_pos h]

/-- `spanDigits` splits a digit string off the front of anything that does
not continue with a digit. -/
theorem spanDigits_append (ds rest : Str) (hds : ∀ d ∈ ds, isDigitCode d = true)
    (hrest : numBoundary rest = true) : spanDigits (ds ++ rest) = (ds, rest) := by
  induction ds with
  | nil =>
    simp only [List.nil_append]
    cases rest with
    | nil => rfl
    | cons c r =>
      rw [spanDigits]
      simp only [numBoundary, Bool.and_eq_true, Bool.not_eq_eq_eq_not, Bool.not_true] at hrest
      rw [if_neg (by simp [hrest.1.1.1])]
  | cons d ds ih =>
    rw [List.cons_append, spanDigits, if_pos (hds d (by simp))]
    rw [ih (fun e he => hds e (by simp [he]))]

/-- Peeling the last digit off a digit-string value. -/
theorem digitsVal_append_last (ds : Str) (d : Nat) :
    digitsVal (ds ++ [d]) = digitsVal ds * 10 + (d - 48) := by
  simp [digitsVal, List.foldl_append]

/-- The value of the digits of `n` is `n`. -/
theorem digitsVal_natDigits (n : Nat) : digitsVal (natDigits n) = n := by
  induction n using Nat.strong_induction_on with
  | _ n ih =>
    rw [natDigits_eq]
    by_cases h : n < 10
    · rw [if_pos h]
      simp [digitsVal]
    · rw [if_neg h, digitsVal_append_last, ih (n / 10) (by omega)]
      omega

/-- `parseIntCore` reads back the digits of any natural number. -/
theorem parseIntCore_natDigits (n : Nat) (rest : Str)
    (hrest : numBoundary rest = true) :
    parseIntCore (natDigits n ++ rest) = some (n, rest) := by
  obtain ⟨d, ds, hds⟩ := List.exists_cons_of_ne_nil (natDigits_ne_nil n)
  rw [parseIntCore, spanDigits_append _ _ (natDigits_digits n) hrest, hds]
  have hnolead : ¬(d = 48 ∧ ds ≠ []) := by
    rintro ⟨rfl, hne⟩
    by_cases h : n < 10
    · rw [natDigits_single n h] at hds
      injection hds with h1 h2
      exact hne h2.symm
    · exact natDigits_head_ne_zero n (by omega) _ _ hds rfl
  show (if d = 48 ∧ ds ≠ [] then none
    else if headFracExp rest = true then none
    else some (digitsVal (d :: ds), rest)) = some (n, rest)
  rw [if_neg hnolead]
  have hfe : headFracExp rest = false := by
    cases rest with
    | nil => rfl
    | cons c r =>
      simp only [numBoundary, Bool.and_eq_true, bne_iff_ne] at hrest
      simp [headFracExp, hrest.1.2, hrest.1.1.2, hrest.2]
  rw [hfe, if_neg (by simp), ← hds, digitsVal_natDigits]

/-- `parseIntTok` reads back exactly what `intDumps` wrote. -/
theorem parseIntTok_intDumps (i : Int) (rest : Str)
    (hrest : numBoundary rest = true) :
    parseIntTok (intDumps i ++ rest) = some (i, rest) := by
  unfold intDumps
  by_cases hneg : i < 0
  · rw [if_pos hneg]
    rw [List.cons_append, parseIntTok, if_pos rfl,
      parseIntCore_natDigits _ _ hrest]
    simp only [Option.map_some]
    have : ((-i).toNat : Int) = -i := Int.toNat_of_nonneg (by omega)
    rw [show -((((-i).toNat : Nat)) : Int) = i by omega]
  · rw [if_neg hneg]
    obtain ⟨d, ds, hds⟩ := List.exists_cons_of_ne_nil (natDigits_ne_nil i.toNat)
    have hdig : isDigitCode d = true := natDigits_digits i.toNat d (by simp [hds])
    rw [hds, List.cons_append, parseIntTok,
      if_neg (by simp only [isDigitCode, Bool.and_eq_true, decide_eq_true_eq] at hdig; omega),
      ← List.cons_append, ← hds, parseIntCore_natDigits _ _ hrest]
    simp only [Option.map_some]
    rw [Int.toNat_of_nonneg (by omega)]

/-! ## Heads of dumped values, whitespace, dict folding -/

/-- `skipWs` does nothing before a non-whitespace character. -/
theorem skipWs_not_ws (c : Nat) (r : Str) (h : isJsonWs c = false) :
    skipWs (c :: r) = c :: r := by
  rw [skipWs, if_neg (by simp [h])]

/-- `skipWs` eats a space. -/
theorem skipWs_space (r : Str) : skipWs (32 :: r) = skipWs r := by
  rw [skipWs, if_pos (by simp [isJsonWs])]

/-- The first code point `intDumps` writes: a minus sign or a digit. -/
theorem intDumps_head (i : Int) :
    ∃ c r, intDumps i = c :: r ∧ (c = 45 ∨ (48 ≤ c ∧ c ≤ 57)) := by
  unfold intDumps
  by_cases hneg : i < 0
  · exact ⟨45, _, by rw [if_pos hneg], Or.inl rfl⟩
  · rw [if_neg hneg]
    obtain ⟨d, ds, hds⟩ := List.exists_cons_of_ne_nil (natDigits_ne_nil i.toNat)
    have := natDigits_digits i.toNat d (by simp [hds])
    simp only [isDigitCode, Bool.and_eq_true, decide_eq_true_eq] at this
    exact ⟨d, ds, hds, Or.inr this⟩

/-- Every dumped value starts with a significant character that is not a
closing bracket. -/
theorem dumps_head (v : JVal) :
    ∃ c r, dumps v = c :: r ∧ isJsonWs c = false ∧ c ≠ 93 ∧ c ≠ 125 := by
  cases v with
  | null => exact ⟨110, _, rfl, by decide, by decide, by decide⟩
  | bool b =>
    cases b with
    | true => exact ⟨116, _, rfl, by decide, by decide, by decide⟩
    | false => exact ⟨102, _, rfl, by decide, by decide, by decide⟩
  | int i =>
    obtain ⟨c, r, hcr, hc⟩ := intDumps_head i
    refine ⟨c, r, by simp [dumps, hcr], ?_, ?_, ?_⟩
    · rcases hc with rfl | h
      · decide
      · simp only [isJsonWs, Bool.or_eq_false_iff, decide_eq_false_iff_not]
        omega
    · rcases hc with rfl | h <;> omega
    · rcases hc with rfl | h <;> omega
  | str s => exact ⟨34, _, rfl, by decide, by decide, by decide⟩
  | arr xs =>
    cases xs with
    | nil => exact ⟨91, _, rfl, by decide, by decide, by decide⟩
    | cons x xs => exact ⟨91, _, rfl, by decide, by decide, by decide⟩
  | obj kvs =>
    cases kvs with
    | nil => exact ⟨123, _, rfl, by decide, by decide, by decide⟩
    | cons kv kvs => exact ⟨123, _, rfl, by decide, by decide, by decide⟩

/-- Skipping whitespace before a dumped value does nothing. -/
theorem skipWs_dumps (v : JVal) (rest : Str) :
    skipWs (dumps v ++ rest) = dumps v ++ rest := by
  obtain ⟨c, r, hcr, hws, _, _⟩ := dumps_head v
  rw [hcr, List.cons_append, skipWs_not_ws _ _ hws]

/-- Assigning a fresh key appends the entry. -/
theorem pyAssign_fresh (acc : PyDict) (k : Str) (v : JVal)
    (h : pyContains acc k = false) : pyAssign acc k v = acc ++ [(k, v)] := by
  induction acc with
  | nil => rfl
  | cons kv rest ih =>
    simp only [pyContains, List.any_cons, Bool.or_eq_true, decide_eq_true_eq,
      Bool.or_eq_false_iff] at h
    rw [pyAssign, if_neg (by simpa using h.1)]
    rw [ih (by simpa [pyContains] using h.2)]
    rfl

/-- Membership distributes over dict concatenation. -/
theorem pyContains_append (a b : PyDict) (k : Str) :
    pyContains (a ++ b) k = (pyContains a k || pyContains b k) := by
  simp [pyContains, List.any_append]

/-- Folding distinct members into an empty dict reproduces them in order:
with no key occurring twice, every assignment is an append. -/
theorem pyDictFold_distinct (kvs : PyDict) (hdist : keysDistinctB kvs = true) :
    pyDictFold kvs = kvs := by
  suffices h : ∀ (ms acc : PyDict), keysDistinctB ms = true →
      (∀ kv ∈ ms, pyContains acc kv.1 = false) →
      List.foldl (fun d kv => pyAssign d kv.1 kv.2) acc ms = acc ++ ms by
    simpa using h kvs [] hdist (by simp [pyContains])
  intro ms
  induction ms with
  | nil =>
    intro acc _ _
    simp
  | cons kv ms ih =>
    intro acc hdist hacc
    simp only [keysDistinctB, Bool.and_eq_true, List.all_eq_true, bne_iff_ne] at hdist
    simp only [List.foldl_cons]
    rw [pyAssign_fresh acc kv.1 kv.2 (hacc kv (by simp))]
    have hacc2 : ∀ kv2 ∈ ms, pyContains (acc ++ [kv]) kv2.1 = false := by
      intro kv2 hkv2
      rw [pyContains_append, hacc kv2 (by simp [hkv2]), Bool.false_or]
      simp only [pyContains, List.any_cons, List.any_nil, Bool.or_false,
        decide_eq_true_eq]
      exact decide_eq_false (fun hkk => (hdist.1 kv2 hkv2) (by simp [hkk]))
    rw [ih (acc ++ [kv]) hdist.2 hacc2]
    simp

/-- Separators and the end of input are number boundaries. -/
theorem numBoundary_sep (c : Nat) (r : Str)
    (h : c = 44 ∨ c = 93 ∨ c = 125) : numBoundary (c :: r) = true := by
  rcases h with rfl | rfl | rfl <;> rfl

/-- Positive length of every dumped value. -/
theorem dumps_length_pos (v : JVal) : 1 ≤ (dumps v).length := by
  obtain ⟨c, r, hcr, _⟩ := dumps_head v
  simp [hcr]

/-- The remainder `dumpsArrTail xs ++ 93 :: rest` is a number boundary. -/
theorem numBoundary_arrTail (xs : List JVal) (rest : Str) :
    numBoundary (dumpsArrTail xs ++ 93 :: rest) = true := by
  cases xs with
  | nil => exact numBoundary_sep 93 rest (by omega)
  | cons y ys =>
    rw [dumpsArrTail, List.cons_append]
    exact numBoundary_sep 44 _ (by omega)

/-- The remainder `dumpsObjTail kvs ++ 125 :: rest` is a number boundary. -/
theorem numBoundary_objTail (kvs : List (Str × JVal)) (rest : Str) :
    numBoundary (dumpsObjTail kvs ++ 125 :: rest) = true := by
  cases kvs with
  | nil => exact numBoundary_sep 125 rest (by omega)
  | cons kv kvs =>
    rw [dumpsObjTail, List.cons_append]
    exact numBoundary_sep 44 _ (by omega)

/-- Completeness of the parser over the serializer, fuel-indexed: with
eight units of fuel per character of the dumped text, `parseVal` reads back
the value that was dumped, and the element and member parsers read back
non-empty dumped lists up to their closing bracket. -/
theorem parse_complete : ∀ fuel : Nat,
    (∀ v rest s, JVal.wfB v = true → 8 * (dumps v).length ≤ fuel →
      numBoundary rest = true → skipWs s = dumps v ++ rest →
      parseVal fuel s = some (v, rest)) ∧
    (∀ x xs rest s, JVal.wfB x = true → JVal.wfListB xs = true →
      8 * (dumps x ++ dumpsArrTail xs).length + 7 ≤ fuel →
      skipWs s = dumps x ++ (dumpsArrTail xs ++ 93 :: rest) →
      parseItems fuel s = some (x :: xs, rest)) ∧
    (∀ k v kvs rest s, JVal.wfB v = true → JVal.wfMembersB kvs = true →
      8 * (dumpsMember (k, v) ++ dumpsObjTail kvs).length + 7 ≤ fuel →
      skipWs s = dumpsMember (k, v) ++ (dumpsObjTail kvs ++ 125 :: rest) →
      parseMembers fuel s = some ((k, v) :: kvs, rest)) := by
  intro fuel
  induction fuel using Nat.strong_induction_on
  rename_i fuel ih
  refine ⟨?_, ?_, ?_⟩
  · -- parseVal
    intro v rest s hwf hlen hnb hs
    have hL : 1 ≤ (dumps v).length := dumps_length_pos v
    obtain ⟨f, rfl⟩ : ∃ f, fuel = f + 1 := ⟨fuel - 1, by omega⟩
    rw [parseVal, hs]
    obtain ⟨f1, rfl⟩ : ∃ f1, f = f1 + 1 := ⟨f - 1, by omega⟩
    cases v with
    | null =>
      rw [show dumps JVal.null ++ rest = 110 :: 117 :: 108 :: 108 :: rest from rfl,
        parseValCore, if_neg (by decide), if_neg (by decide), if_neg (by decide),
        if_pos rfl]
      rfl
    | bool b =>
      cases b with
      | true =>
        rw [show dumps (JVal.bool true) ++ rest = 116 :: 114 :: 117 :: 101 :: rest from rfl,
          parseValCore, if_neg (by decide), if_neg (by decide), if_neg (by decide),
          if_neg (by decide), if_pos rfl]
        rfl
      | false =>
        rw [show dumps (JVal.bool false) ++ rest =
            102 :: 97 :: 108 :: 115 :: 101 :: rest from rfl,
          parseValCore, if_neg (by decide), if_neg (by decide), if_neg (by decide),
          if_neg (by decide), if_neg (by decide), if_pos rfl]
        rfl
    | int i =>
      obtain ⟨c, r, hcr, hc⟩ := intDumps_head i
      rw [show dumps (JVal.int i) = intDumps i from rfl, hcr, List.cons_append,
        parseValCore,
        if_neg (by rcases hc with rfl | h <;> omega),
        if_neg (by rcases hc with rfl | h <;> omega),
        if_neg (by rcases hc with rfl | h <;> omega),
        if_neg (by rcases hc with rfl | h <;> omega),
        if_neg (by rcases hc with rfl | h <;> omega),
        if_neg (by rcases hc with rfl | h <;> omega),
        ← List.cons_append, ← hcr, parseIntTok_intDumps i rest hnb]
      rfl
    | str t =>
      rw [show dumps (JVal.str t) ++ rest = 34 :: (t.flatMap escapeChar ++ 34 :: rest) by
          simp [dumps, dumpStr],
        parseValCore, if_pos rfl, parseStrBody_escape]
      rfl
    | arr xs =>
      cases xs with
      | nil =>
        obtain ⟨f2, rfl⟩ : ∃ f2, f1 = f2 + 1 := ⟨f1 - 1, by
          have : (dumps (JVal.arr [])).length = 2 := rfl
          omega⟩
        rw [show dumps (JVal.arr []) ++ rest = 91 :: 93 :: rest from rfl,
          parseValCore, if_neg (by decide), if_pos rfl,
          skipWs_not_ws 93 rest (by decide), parseArrOpen, if_pos rfl]
      | cons x xs =>
        have hlen0 : (dumps (JVal.arr (x :: xs))).length =
            (dumps x ++ dumpsArrTail xs).length + 2 := by
          simp [dumps]
          omega
        obtain ⟨f2, rfl⟩ : ∃ f2, f1 = f2 + 1 := ⟨f1 - 1, by omega⟩
        rw [show dumps (JVal.arr (x :: xs)) ++ rest =
            91 :: (dumps x ++ (dumpsArrTail xs ++ 93 :: rest)) by
          simp [dumps],
          parseValCore, if_neg (by decide), if_pos rfl, skipWs_dumps]
        obtain ⟨c, r, hcr, hws, h93, _⟩ := dumps_head x
        rw [hcr, List.cons_append, parseArrOpen, if_neg h93]
        simp only [JVal.wfB, JVal.wfListB, Bool.and_eq_true] at hwf
        rw [(ih f2 (by omega)).2.1 x xs rest (c :: (r ++ (dumpsArrTail xs ++ 93 :: rest)))
          hwf.1 hwf.2 (by omega)
          (by rw [skipWs_not_ws _ _ hws, ← List.cons_append, ← hcr])]
        rfl
    | obj kvs =>
      cases kvs with
      | nil =>
        obtain ⟨f2, rfl⟩ : ∃ f2, f1 = f2 + 1 := ⟨f1 - 1, by
          have : (dumps (JVal.obj [])).length = 2 := rfl
          omega⟩
        rw [show dumps (JVal.obj []) ++ rest = 123 :: 125 :: rest from rfl,
          parseValCore, if_neg (by decide), if_neg (by decide), if_pos rfl,
          skipWs_not_ws 125 rest (by decide), parseObjOpen, if_pos rfl]
      | cons kv kvs =>
        obtain ⟨k, v⟩ := kv
        have hlen0 : (dumps (JVal.obj ((k, v) :: kvs))).length =
            (dumpsMember (k, v) ++ dumpsObjTail kvs).length + 2 := by
          simp [dumps]
          omega
        obtain ⟨f2, rfl⟩ : ∃ f2, f1 = f2 + 1 := ⟨f1 - 1, by omega⟩
        rw [show dumps (JVal.obj ((k, v) :: kvs)) ++ rest =
            123 :: (dumpsMember (k, v) ++ (dumpsObjTail kvs ++ 125 :: rest)) by
          simp [dumps],
          parseValCore, if_neg (by decide), if_neg (by decide), if_pos rfl]
        have hmem : dumpsMember (k, v) ++ (dumpsObjTail kvs ++ 125 :: rest) =
            34 :: (k.flatMap escapeChar ++
              (34 :: 58 :: 32 :: (dumps v ++ (dumpsObjTail kvs ++ 125 :: rest)))) := by
          simp [dumpsMember, dumpStr]
        rw [hmem, skipWs_not_ws 34 _ (by decide), parseObjOpen, if_neg (by decide), ← hmem]
        simp only [JVal.wfB, JVal.wfMembersB, Bool.and_eq_true] at hwf
        rw [(ih f2 (by omega)).2.2 k v kvs rest _ hwf.2.1 hwf.2.2 (by omega)
          (by rw [hmem, skipWs_not_ws 34 _ (by decide), ← hmem])]
        simp only [Option.map_some]
        rw [pyDictFold_distinct ((k, v) :: kvs) hwf.1]
  · -- parseItems
    intro x xs rest s hwx hwxs hlen hs
    have hx1 : 1 ≤ (dumps x).length := dumps_length_pos x
    have hLI : (dumps x ++ dumpsArrTail xs).length =
        (dumps x).length + (dumpsArrTail xs).length := by
      simp
    obtain ⟨f, rfl⟩ : ∃ f, fuel = f + 1 := ⟨fuel - 1, by omega⟩
    rw [parseItems,
      (ih f (by omega)).1 x (dumpsArrTail xs ++ 93 :: rest) s hwx (by omega)
        (numBoundary_arrTail xs rest) hs]
    obtain ⟨f1, rfl⟩ : ∃ f1, f = f1 + 1 := ⟨f - 1, by omega⟩
    rw [parseItemsCont]
    cases xs with
    | nil =>
      obtain ⟨f2, rfl⟩ : ∃ f2, f1 = f2 + 1 := ⟨f1 - 1, by omega⟩
      rw [show dumpsArrTail ([] : List JVal) ++ 93 :: rest = 93 :: rest from rfl,
        skipWs_not_ws 93 rest (by decide), parseItemsSep]
    | cons y ys =>
      have hy1 : 1 ≤ (dumps y).length := dumps_length_pos y
      have hTail : (dumpsArrTail (y :: ys)).length =
          2 + (dumps y).length + (dumpsArrTail ys).length := by
        simp [dumpsArrTail]
        omega
      obtain ⟨f2, rfl⟩ : ∃ f2, f1 = f2 + 1 := ⟨f1 - 1, by omega⟩
      rw [show dumpsArrTail (y :: ys) ++ 93 :: rest =
          44 :: 32 :: (dumps y ++ (dumpsArrTail ys ++ 93 :: rest)) by
        simp [dumpsArrTail],
        skipWs_not_ws 44 _ (by decide), parseItemsSep]
      simp only [JVal.wfListB, Bool.and_eq_true] at hwxs
      have hLI2 : (dumps y ++ dumpsArrTail ys).length =
          (dumps y).length + (dumpsArrTail ys).length := by
        simp
      rw [(ih f2 (by omega)).2.1 y ys rest (32 :: (dumps y ++ (dumpsArrTail ys ++ 93 :: rest)))
        hwxs.1 hwxs.2 (by omega) (by rw [skipWs_space, skipWs_dumps])]
      rfl
  · -- parseMembers
    intro k v kvs rest s hwv hwkvs hlen hs
    have hv1 : 1 ≤ (dumps v).length := dumps_length_pos v
    have hk2 : (dumpStr k).length = 2 + (k.flatMap escapeChar).length := by
      simp [dumpStr]
      omega
    have hmemlen : (dumpsMember (k, v)).length =
        (dumpStr k).length + 2 + (dumps v).length := by
      simp [dumpsMember]
      omega
    have hLM : (dumpsMember (k, v) ++ dumpsObjTail kvs).length =
        (dumpsMember (k, v)).length + (dumpsObjTail kvs).length := by
      simp
    have hmem : dumpsMember (k, v) ++ (dumpsObjTail kvs ++ 125 :: rest) =
        34 :: (k.flatMap escapeChar ++
          (34 :: 58 :: 32 :: (dumps v ++ (dumpsObjTail kvs ++ 125 :: rest)))) := by
      simp [dumpsMember, dumpStr]
    obtain ⟨f, rfl⟩ : ∃ f, fuel = f + 1 := ⟨fuel - 1, by omega⟩
    obtain ⟨f1, rfl⟩ : ∃ f1, f = f1 + 1 := ⟨f - 1, by omega⟩
    rw [parseMembers, hs, hmem, parseMemKey,
      show k.flatMap escapeChar ++
          (34 :: 58 :: 32 :: (dumps v ++ (dumpsObjTail kvs ++ 125 :: rest))) =
        k.flatMap escapeChar ++
          34 :: (58 :: 32 :: (dumps v ++ (dumpsObjTail kvs ++ 125 :: rest))) from rfl,
      parseStrBody_escape]
    obtain ⟨f2, rfl⟩ : ∃ f2, f1 = f2 + 1 := ⟨f1 - 1, by omega⟩
    rw [parseMemColon, skipWs_not_ws 58 _ (by decide)]
    obtain ⟨f3, rfl⟩ : ∃ f3, f2 = f3 + 1 := ⟨f2 - 1, by omega⟩
    rw [parseMemValue,
      (ih f3 (by omega)).1 v (dumpsObjTail kvs ++ 125 :: rest)
        (32 :: (dumps v ++ (dumpsObjTail kvs ++ 125 :: rest))) hwv (by omega)
        (numBoundary_objTail kvs rest) (by rw [skipWs_space, skipWs_dumps])]
    obtain ⟨f4, rfl⟩ : ∃ f4, f3 = f4 + 1 := ⟨f3 - 1, by omega⟩
    rw [parseMemCont]
    cases kvs with
    | nil =>
      obtain ⟨f5, rfl⟩ : ∃ f5, f4 = f5 + 1 := ⟨f4 - 1, by omega⟩
      rw [show dumpsObjTail ([] : List (Str × JVal)) ++ 125 :: rest = 125 :: rest from rfl,
        skipWs_not_ws 125 rest (by decide), parseMemSep]
    | cons kv2 kvs2 =>
      obtain ⟨k2, v2⟩ := kv2
      have hv21 : 1 ≤ (dumps v2).length := dumps_length_pos v2
      have hk22 : (dumpStr k2).length = 2 + (k2.flatMap escapeChar).length := by
        simp [dumpStr]
        omega
      have hmemlen2 : (dumpsMember (k2, v2)).length =
          (dumpStr k2).length + 2 + (dumps v2).length := by
        simp [dumpsMember]
        omega
      have hTail2 : (dumpsObjTail ((k2, v2) :: kvs2)).length =
          2 + (dumpsMember (k2, v2)).length + (dumpsObjTail kvs2).length := by
        simp [dumpsObjTail]
        omega
      have hLM2 : (dumpsMember (k2, v2) ++ dumpsObjTail kvs2).length =
          (dumpsMember (k2, v2)).length + (dumpsObjTail kvs2).length := by
        simp
      obtain ⟨f5, rfl⟩ : ∃ f5, f4 = f5 + 1 := ⟨f4 - 1, by omega⟩
      rw [show dumpsObjTail ((k2, v2) :: kvs2) ++ 125 :: rest =
          44 :: 32 :: (dumpsMember (k2, v2) ++ (dumpsObjTail kvs2 ++ 125 :: rest)) by
        simp [dumpsObjTail],
        skipWs_not_ws 44 _ (by decide), parseMemSep]
      simp only [JVal.wfMembersB, Bool.and_eq_true] at hwkvs
      rw [(ih f5 (by omega)).2.2 k2 v2 kvs2 rest
        (32 :: (dumpsMember (k2, v2) ++ (dumpsObjTail kvs2 ++ 125 :: rest)))
        hwkvs.1 hwkvs.2 (by omega) (by
          rw [skipWs_space]
          have hmem2 : dumpsMember (k2, v2) ++ (dumpsObjTail kvs2 ++ 125 :: rest) =
              34 :: (k2.flatMap escapeChar ++
                (34 :: 58 :: 32 :: (dumps v2 ++ (dumpsObjTail kvs2 ++ 125 :: rest)))) := by
            simp [dumpsMember, dumpStr]
          rw [hmem2, skipWs_not_ws 34 _ (by decide)])]
      rfl

/-- `json.loads` reads back what `json.dumps` wrote, for any value whose
objects have distinct keys. -/
theorem loads_dumps (v : JVal) (hwf : JVal.wfB v = true) :
    loads (dumps v) = some v := by
  have hp := (parse_complete (8 * (dumps v).length + 8)).1 v [] (dumps v) hwf
    (by omega) rfl (by simpa using skipWs_dumps v [])
  rw [loads, hp]
  rfl

/-! ## Frames: header, slices, dict appends -/

/-- Big-endian bytes read back as their value. -/
theorem beValue_beBytes (n : Nat) (h : n < 4294967296) :
    beValue (beBytes n) = n := by
  simp only [beBytes, beValue]
  omega

/-- A value under a fresh key appended to a dict is found by lookup. -/
theorem pyGet_append_fresh (m : PyDict) (k : Str) (v : JVal)
    (h : pyContains m k = false) : pyGet (m ++ [(k, v)]) k = .ok v := by
  induction m with
  | nil => simp [pyGet]
  | cons kv rest ih =>
    simp only [pyContains, List.any_cons, Bool.or_eq_true, decide_eq_true_eq,
      Bool.or_eq_false_iff] at h
    rw [List.cons_append, pyGet, if_neg (by simpa using h.1)]
    exact ih (by simpa [pyContains] using h.2)

/-- Deleting a fresh key appended to a dict restores the dict. -/
theorem pyDelete_append_fresh (m : PyDict) (k : Str) (v : JVal)
    (h : pyContains m k = false) : pyDelete (m ++ [(k, v)]) k = m := by
  induction m with
  | nil => simp [pyDelete]
  | cons kv rest ih =>
    simp only [pyContains, List.any_cons, Bool.or_eq_true, decide_eq_true_eq,
      Bool.or_eq_false_iff] at h
    rw [List.cons_append, pyDelete, if_neg (by simpa using h.1)]
    rw [ih (by simpa [pyContains] using h.2)]

/-- A dict with an appended entry contains its key. -/
theorem pyContains_append_self (m : PyDict) (k : Str) (v : JVal) :
    pyContains (m ++ [(k, v)]) k = true := by
  rw [pyContains_append]
  simp [pyContains]

/-- A successful lookup means the key is contained. -/
theorem pyContains_of_pyGet (m : PyDict) (k : Str) (v : JVal)
    (h : pyGet m k = .ok v) : pyContains m k = true := by
  induction m with
  | nil => simp [pyGet] at h
  | cons kv rest ih =>
    rw [pyGet] at h
    by_cases hk : kv.1 = k
    · simp [pyContains, hk]
    · rw [if_neg hk] at h
      simp only [pyContains, List.any_cons, Bool.or_eq_true]
      exact Or.inr (ih h)

/-- Distinctness survives appending one genuinely fresh key. -/
theorem keysDistinctB_append_fresh (m : PyDict) (k : Str) (v : JVal)
    (hd : keysDistinctB m = true) (h : pyContains m k = false) :
    keysDistinctB (m ++ [(k, v)]) = true := by
  induction m with
  | nil => simp [keysDistinctB]
  | cons kv rest ih =>
    simp only [pyContains, List.any_cons, Bool.or_eq_true, decide_eq_true_eq,
      Bool.or_eq_false_iff] at h
    simp only [keysDistinctB, Bool.and_eq_true, List.all_eq_true, bne_iff_ne] at hd
    rw [List.cons_append, keysDistinctB]
    refine (Bool.and_eq_true _ _).mpr ⟨?_, ih hd.2 (by simpa [pyContains] using h.2)⟩
    rw [List.all_eq_true]
    intro kv2 hkv2
    rcases List.mem_append.mp hkv2 with hin | hone
    · exact bne_iff_ne.mpr (hd.1 kv2 hin)
    · simp only [List.mem_singleton] at hone
      subst hone
      exact bne_iff_ne.mpr (by simpa using fun hkk => by simp [hkk] at h)

/-- Well-formedness of member values survives appending an entry with a
well-formed value. -/
theorem wfMembersB_append (m : PyDict) (kv : Str × JVal)
    (hm : JVal.wfMembersB m = true) (hv : JVal.wfB kv.2 = true) :
    JVal.wfMembersB (m ++ [kv]) = true := by
  induction m with
  | nil => simpa [JVal.wfMembersB] using hv
  | cons kv2 rest ih =>
    obtain ⟨k2, v2⟩ := kv2
    simp only [JVal.wfMembersB, Bool.and_eq_true] at hm
    rw [List.cons_append, JVal.wfMembersB]
    exact (Bool.and_eq_true _ _).mpr ⟨hm.1, ih hm.2⟩

/-- The metadata dict of one block is well formed: fixed distinct keys,
string and integer values. -/
theorem metadata_wf (b : DataBlock) : JVal.wfB (.obj b.metadata) = true := by
  obtain ⟨n, d, enc⟩ := b
  cases enc with
  | none => rfl
  | some e =>
    by_cases he : e = []
    · simp only [DataBlock.metadata, he, if_pos rfl]
      rfl
    · simp only [DataBlock.metadata, if_neg he]
      rfl

/-- The metadata list of a block list is a well-formed JSON value. -/
theorem metaList_wf (blocks : List DataBlock) : JVal.wfB (metaList blocks) = true := by
  rw [metaList]
  show JVal.wfListB (blocks.map (fun b => .obj b.metadata)) = true
  induction blocks with
  | nil => rfl
  | cons b rest ih =>
    rw [List.map_cons, JVal.wfListB]
    exact (Bool.and_eq_true _ _).mpr ⟨metadata_wf b, ih⟩

/-- Bind on a successful `Except` is application. -/
theorem except_bind_ok {e a b : Type} (x : a) (f : a → Except e b) :
    (Except.ok x >>= f) = f x := rfl

/-- Integer slicing at natural indices is natural slicing. -/
theorem pySliceI_nat (l : Bytes) (a b : Nat) :
    pySliceI l (a : Int) (b : Int) = pySliceN l a b := by
  simp only [pySliceI, pySliceN]
  rw [if_neg (by omega), if_neg (by omega)]
  have hd : l.drop (min (a : Int) (l.length : Int)).toNat = l.drop a := by
    rcases le_total a l.length with h | h
    · congr 1
      omega
    · rw [show (min (a : Int) (l.length : Int)).toNat = l.length by omega,
        List.drop_length, List.drop_eq_nil_of_le h]
  rw [hd]
  apply List.take_eq_take.mpr
  simp only [List.length_drop]
  omega

/-- Slicing a byte string at the exact range of an inner segment yields
that segment. -/
theorem pySliceN_append_exact (pre mid suf : Bytes) :
    pySliceN (pre ++ (mid ++ suf)) pre.length (pre.length + mid.length) = mid := by
  simp only [pySliceN]
  rw [show pre.length + mid.length - pre.length = mid.length by omega,
    List.drop_left, List.take_left]

/-- The integer version of exact-range slicing. -/
theorem pySliceI_append_exact (pre mid suf : Bytes) :
    pySliceI (pre ++ (mid ++ suf)) (pre.length : Int)
      ((pre.length : Int) + (mid.length : Int)) = mid := by
  rw [show (pre.length : Int) + (mid.length : Int) = ((pre.length + mid.length : Nat) : Int) by
    push_cast
    ring]
  rw [pySliceI_nat, pySliceN_append_exact]

/-- What a successful `package` call produced: the reserved key was absent,
the serialization object encoded to some UTF-8 bytes that fit the 4-byte
header, and the frame is header, JSON bytes, then the concatenated block
data. -/
theorem package_ok (data : PyDict) (blocks : List DataBlock) (bs : Bytes)
    (h : (package data blocks).1 = .ok bs) :
    pyContains data DATABLOCK_KEY = false ∧
    ∃ jb : Bytes,
      utf8Encode (dumps (.obj (if 0 < blocks.length then
        data ++ [(DATABLOCK_KEY, metaList blocks)] else data))) = some jb ∧
      jb.length < 4294967296 ∧
      bs = beBytes jb.length ++ jb ++ (blocks.map (fun b => b.data)).flatten := by
  by_cases hc : pyContains data DATABLOCK_KEY
  · rw [package, if_pos hc] at h
    exact absurd h (by simp)
  · refine ⟨by simpa using hc, ?_⟩
    rw [package, if_neg hc] at h
    simp only at h
    unfold structPackL at h
    split at h
    · exact absurd h (by simp)
    · rename_i data_bytes henc
      split at h
      · exact absurd h (by simp)
      · rename_i header_bytes hif
        simp only [Except.ok.injEq] at h
        split at hif
        · rename_i hfit
          simp only [Except.ok.injEq] at hif
          exact ⟨data_bytes, henc, hfit, by rw [← h, ← hif]⟩
        · exact absurd hif (by simp)

/-- The dict that `package` serializes is well formed whenever the caller's
dict is: the appended reserved key is fresh and its metadata list is well
formed. -/
theorem package_dict_wf (m : PyDict) (blocks : List DataBlock)
    (hwf : pyDictWfB m = true) (hc : pyContains m DATABLOCK_KEY = false) :
    pyDictWfB (if 0 < blocks.length then
      m ++ [(DATABLOCK_KEY, metaList blocks)] else m) = true := by
  by_cases hb : 0 < blocks.length
  · rw [if_pos hb]
    unfold pyDictWfB at hwf ⊢
    rw [show JVal.wfB (.obj m) = (keysDistinctB m && JVal.wfMembersB m) from rfl] at hwf
    simp only [Bool.and_eq_true] at hwf
    rw [show JVal.wfB (.obj (m ++ [(DATABLOCK_KEY, metaList blocks)])) =
      (keysDistinctB (m ++ [(DATABLOCK_KEY, metaList blocks)]) &&
        JVal.wfMembersB (m ++ [(DATABLOCK_KEY, metaList blocks)])) from rfl]
    simp only [Bool.and_eq_true]
    exact ⟨keysDistinctB_append_fresh m _ _ hwf.1 hc,
      wfMembersB_append m _ hwf.2 (metaList_wf blocks)⟩
  · rw [if_neg hb]
    exact hwf

/-- The block-slicing loop of `unpackage`, run over the metadata that
`package` wrote, starting right after a prefix whose length is the running
offset, recovers the original blocks (provided no block carried the
empty-string encoding, which `metadata()` drops). -/
theorem unpackBlocks_roundtrip (blocks : List DataBlock) (pre suf : Bytes)
    (henc : ∀ b ∈ blocks, b.encoding ≠ some []) :
    unpackBlocks (pre ++ ((blocks.map (fun b => b.data)).flatten ++ suf))
      (pre.length : Int) (blocks.map (fun b => .obj b.metadata)) = .ok blocks := by
  induction blocks generalizing pre with
  | nil => rfl
  | cons b rest ih =>
    obtain ⟨nm, dt, ec⟩ := b
    have hflat : ((((⟨nm, dt, ec⟩ : DataBlock) :: rest).map (fun b => b.data)).flatten ++ suf) =
        dt ++ ((rest.map (fun b => b.data)).flatten ++ suf) := by
      simp
    rw [hflat]
    simp only [List.map_cons]
    have hrec : unpackBlocks (pre ++ (dt ++ ((rest.map (fun b => b.data)).flatten ++ suf)))
        ((pre.length : Int) + ((dt.length : Nat) : Int))
        (rest.map (fun b => .obj b.metadata)) = .ok rest := by
      have h1 : pre ++ (dt ++ ((rest.map (fun b => b.data)).flatten ++ suf)) =
          (pre ++ dt) ++ ((rest.map (fun b => b.data)).flatten ++ suf) := by
        simp
      have h2 : (pre.length : Int) + ((dt.length : Nat) : Int) =
          (((pre ++ dt).length : Nat) : Int) := by
        simp
      rw [h1, h2]
      exact ih (pre ++ dt) (fun b hb => henc b (List.mem_cons_of_mem _ hb))
    have hslice := pySliceI_append_exact pre dt ((rest.map (fun b => b.data)).flatten ++ suf)
    cases ec with
    | none =>
      show unpackCons (pre ++ (dt ++ ((rest.map (fun b => b.data)).flatten ++ suf)))
          (pre.length : Int) nm ((dt.length : Nat) : Int) none
          (unpackBlocks (pre ++ (dt ++ ((rest.map (fun b => b.data)).flatten ++ suf)))
            ((pre.length : Int) + ((dt.length : Nat) : Int))
            (rest.map (fun b => .obj b.metadata))) =
        .ok (⟨nm, dt, none⟩ :: rest)
      rw [hrec, unpackCons, hslice]
    | some e =>
      have he : e ≠ [] := fun h0 =>
        henc ⟨nm, dt, some e⟩ (List.mem_cons_self _ _) (by rw [h0])
      have hmd : DataBlock.metadata ⟨nm, dt, some e⟩ =
          [(strCodes "name", .str nm), (strCodes "size", .int dt.length),
            (strCodes "encoding", .str e)] := by
        simp [DataBlock.metadata, if_neg he]
      rw [hmd]
      show unpackCons (pre ++ (dt ++ ((rest.map (fun b => b.data)).flatten ++ suf)))
          (pre.length : Int) nm ((dt.length : Nat) : Int) (some e)
          (unpackBlocks (pre ++ (dt ++ ((rest.map (fun b => b.data)).flatten ++ suf)))
            ((pre.length : Int) + ((dt.length : Nat) : Int))
            (rest.map (fun b => .obj b.metadata))) =
        .ok (⟨nm, dt, some e⟩ :: rest)
      rw [hrec, unpackCons, hslice]

/-- A key a dict does not contain raises `KeyError` on lookup. -/
theorem pyGet_not_contains (d : PyDict) (k : Str) (h : pyContains d k = false) :
    pyGet d k = .error .keyError := by
  induction d with
  | nil => rfl
  | cons kv rest ih =>
    simp only [pyContains, List.any_cons, Bool.or_eq_false_iff,
      decide_eq_false_iff_not] at h
    rw [pyGet, if_neg h.1]
    exact ih (by simpa [pyContains] using h.2)

/-- A slice that fits inside the left part of an append ignores the right
part. -/
theorem pySliceN_append_fit (l junk : Bytes) (a sz : Nat)
    (hfit : a + sz ≤ l.length) :
    pySliceN (l ++ junk) a (a + sz) = pySliceN l a (a + sz) := by
  simp only [pySliceN]
  rw [show a + sz - a = sz from by omega,
    List.drop_append_eq_append_drop, show a - l.length = 0 from by omega,
    List.drop_zero, List.take_append_eq_append_take,
    show sz - (l.drop a).length = 0 from by simp only [List.length_drop]; omega,
    List.take_zero, List.append_nil]

/-- The integer-index version of `pySliceN_append_fit`. -/
theorem pySliceI_append_fit (l junk : Bytes) (a : Int) (sz : Nat)
    (h0 : 0 ≤ a) (hfit : a + (sz : Int) ≤ (l.length : Int)) :
    pySliceI (l ++ junk) a (a + (sz : Int)) = pySliceI l a (a + (sz : Int)) := by
  obtain ⟨n, rfl⟩ : ∃ n : Nat, a = (n : Int) := ⟨a.toNat, by omega⟩
  rw [show (n : Int) + (sz : Int) = ((n + sz : Nat) : Int) from by push_cast; ring,
    pySliceI_nat, pySliceI_nat, pySliceN_append_fit]
  omega

/-- A slice that fits has exactly the requested length. -/
theorem pySliceI_length_fit (l : Bytes) (a : Int) (sz : Nat)
    (h0 : 0 ≤ a) (hfit : a + (sz : Int) ≤ (l.length : Int)) :
    (pySliceI l a (a + (sz : Int))).length = sz := by
  obtain ⟨n, rfl⟩ : ∃ n : Nat, a = (n : Int) := ⟨a.toNat, by omega⟩
  rw [show (n : Int) + (sz : Int) = ((n + sz : Nat) : Int) from by push_cast; ring,
    pySliceI_nat]
  simp only [pySliceN, List.length_take, List.length_drop]
  omega

/-- The slicing loop of `unpackage` follows the specification's slicing
rule on every list of declared entries, with no condition on the sizes:
each block is cut at the running offset, in order. -/
theorem unpackBlocks_spec (data : Bytes) :
    ∀ entries : List (Str × Nat × Option Str), ∀ start : Int,
    unpackBlocks data start (entries.map metaObjOf) =
      .ok (specSliceBlocks data start entries) := by
  intro entries
  induction entries with
  | nil => intro start; rfl
  | cons e rest ih =>
    obtain ⟨nm, sz, enc⟩ := e
    intro start
    cases enc with
    | none =>
      show unpackCons data start nm (sz : Int) none
          (unpackBlocks data (start + (sz : Int)) (rest.map metaObjOf)) = _
      rw [ih, unpackCons]
      rfl
    | some e =>
      show unpackCons data start nm (sz : Int) (some e)
          (unpackBlocks data (start + (sz : Int)) (rest.map metaObjOf)) = _
      rw [ih, unpackCons]
      rfl

/-- When every declared size fits in the buffer, each recovered block's
data has exactly its declared size. -/
theorem specSliceBlocks_sizes (data : Bytes) :
    ∀ entries : List (Str × Nat × Option Str), ∀ start : Int, 0 ≤ start →
    start + (sumSizes entries : Int) ≤ (data.length : Int) →
    (specSliceBlocks data start entries).map (fun b => b.size) =
      entries.map (fun e => e.2.1) := by
  intro entries
  induction entries with
  | nil => intro start _ _; rfl
  | cons e rest ih =>
    obtain ⟨nm, sz, enc⟩ := e
    intro start h0 hfit
    simp only [sumSizes] at hfit
    push_cast at hfit
    simp only [specSliceBlocks, List.map_cons, DataBlock.size, List.cons.injEq]
    exact ⟨pySliceI_length_fit data start sz h0 (by omega),
      ih (start + (sz : Int)) (by omega) (by omega)⟩

/-- When every declared size fits in the buffer, bytes appended beyond the
declared blocks do not change what is recovered. -/
theorem specSliceBlocks_append (data junk : Bytes) :
    ∀ entries : List (Str × Nat × Option Str), ∀ start : Int, 0 ≤ start →
    start + (sumSizes entries : Int) ≤ (data.length : Int) →
    specSliceBlocks (data ++ junk) start entries =
      specSliceBlocks data start entries := by
  intro entries
  induction entries with
  | nil => intro start _ _; rfl
  | cons e rest ih =>
    obtain ⟨nm, sz, enc⟩ := e
    intro start h0 hfit
    simp only [sumSizes] at hfit
    push_cast at hfit
    simp only [specSliceBlocks, List.cons.injEq]
    exact ⟨by rw [pySliceI_append_fit data junk start sz h0 (by omega)],
      ih (start + (sz : Int)) (by omega) (by omega)⟩

/-- A frame produced by a successful `package` call unpackages to the
original dict and blocks, provided the caller's dict is well formed and no
block carries the empty-string encoding (which `metadata()` drops). -/
theorem unpackage_package (m : PyDict) (blocks : List DataBlock) (bs : Bytes)
    (hwf : pyDictWfB m = true)
    (henc : ∀ b ∈ blocks, b.encoding ≠ some [])
    (h : (package m blocks).1 = .ok bs) :
    unpackage bs = .ok (m, blocks) := by
  obtain ⟨hc, jb, hj, hfit, hbs⟩ := package_ok m blocks bs h
  have hwfD := package_dict_wf m blocks hwf hc
  have hlen4 : (beBytes jb.length).length = 4 := rfl
  have htake : bs.take 4 = beBytes jb.length := by
    rw [hbs, List.append_assoc,
      show (4 : Nat) = (beBytes jb.length).length from rfl, List.take_left]
  have hhdr : structUnpackL (bs.take 4) = .ok jb.length := by
    rw [htake, structUnpackL, if_pos hlen4, beValue_beBytes _ hfit]
  have hslice : pySliceN bs 4 (4 + jb.length) = jb := by
    rw [hbs, List.append_assoc,
      show (4 : Nat) = (beBytes jb.length).length from rfl]
    exact pySliceN_append_exact _ _ _
  by_cases hb : 0 < blocks.length
  · rw [if_pos hb] at hj hwfD
    rw [unpackage, hhdr, unpackHeader, hslice, utf8Decode_encode _ jb hj,
      unpackJson, loads_dumps _ hwfD, unpackDoc,
      if_pos (pyContains_append_self m DATABLOCK_KEY (metaList blocks)),
      pyGet_append_fresh m DATABLOCK_KEY (metaList blocks) hc,
      metaList, unpackMetas]
    have hrt : unpackBlocks bs (4 + ((jb.length : Nat) : Int))
        (blocks.map fun b => .obj b.metadata) = .ok blocks := by
      have h1 : bs = (beBytes jb.length ++ jb) ++
          ((blocks.map (fun b => b.data)).flatten ++ []) := by
        rw [hbs]
        simp
      have h2 : (4 : Int) + ((jb.length : Nat) : Int) =
          (((beBytes jb.length ++ jb).length : Nat) : Int) := by
        rw [List.length_append, hlen4]
        push_cast
        ring
      rw [h1, h2]
      exact unpackBlocks_roundtrip blocks _ [] henc
    rw [hrt, unpackFinish, pyDelete_append_fresh m DATABLOCK_KEY _ hc]
  · rw [if_neg hb] at hj hwfD
    have hnil : blocks = [] := by
      cases blocks with
      | nil => rfl
      | cons b bl => exact absurd (by simp) hb
    subst hnil
    rw [unpackage, hhdr, unpackHeader, hslice, utf8Decode_encode _ jb hj,
      unpackJson, loads_dumps _ hwfD, unpackDoc, if_neg (by rw [hc]; simp)]

/-! # The claims -/

/-- C1 (amended): round-trip of the codec in `src/protocol.py` — for a
well-formed dict `m` and blocks none of which carries the empty-string
encoding, a frame a successful `package(m, B)` call returned unpackages to
exactly `(m, B)`: the same dict, and the same blocks in the same order
with the same names, data and encodings.  (The original unconditional
claim fails at a block declaring the empty-string encoding: see the
counterexample.) -/
theorem claim1_roundtrip (m : PyDict) (blocks : List DataBlock) (bs : Bytes)
    (hwf : pyDictWfB m = true)
    (henc : ∀ b ∈ blocks, b.encoding ≠ some [])
    (hok : (package m blocks).1 = .ok bs) :
    unpackage bs = .ok (m, blocks) :=
  unpackage_package m blocks bs hwf henc hok

/-- C1 witness: the round-trip at a one-key dict and one concrete block. -/
theorem claim1_roundtrip_witness :
    unpackage [0, 0, 0, 51, 123, 34, 97, 34, 58, 32, 49, 44, 32, 34, 100, 97,
        116, 97, 95, 98, 108, 111, 99, 107, 115, 34, 58, 32, 91, 123, 34, 110,
        97, 109, 101, 34, 58, 32, 34, 102, 34, 44, 32, 34, 115, 105, 122, 101,
        34, 58, 32, 50, 125, 93, 125, 49, 50] =
      .ok ([(strCodes "a", JVal.int 1)], [⟨strCodes "f", [49, 50], none⟩]) :=
  claim1_roundtrip [(strCodes "a", JVal.int 1)] [⟨strCodes "f", [49, 50], none⟩]
    _ (by decide) (by decide) (by decide)

/-- C1 counterexample: a block declaring the empty-string encoding packages
successfully, but `metadata()` drops the falsy encoding, so the frame
unpackages to a block with no encoding — not the original pair. -/
theorem claim1_roundtrip_counterexample :
    (package [] [⟨strCodes "f", [49], some []⟩]).1 =
      .ok [0, 0, 0, 43, 123, 34, 100, 97, 116, 97, 95, 98, 108, 111, 99, 107,
        115, 34, 58, 32, 91, 123, 34, 110, 97, 109, 101, 34, 58, 32, 34, 102,
        34, 44, 32, 34, 115, 105, 122, 101, 34, 58, 32, 49, 125, 93, 125, 49] ∧
    unpackage [0, 0, 0, 43, 123, 34, 100, 97, 116, 97, 95, 98, 108, 111, 99,
        107, 115, 34, 58, 32, 91, 123, 34, 110, 97, 109, 101, 34, 58, 32, 34,
        102, 34, 44, 32, 34, 115, 105, 122, 101, 34, 58, 32, 49, 125, 93, 125,
        49] ≠
      .ok ([], [⟨strCodes "f", [49], some []⟩]) :=
  ⟨by decide, by decide⟩

/-- C2: the first four bytes of a frame `package` returns, read as a
big-endian unsigned integer, equal the byte length of the JSON segment —
excluding the header itself and excluding the block bytes. -/
theorem claim2_header (m : PyDict) (blocks : List DataBlock) (bs jb : Bytes)
    (hok : (package m blocks).1 = .ok bs)
    (hj : utf8Encode (dumps (.obj (if 0 < blocks.length then
      m ++ [(DATABLOCK_KEY, metaList blocks)] else m))) = some jb) :
    beValue (bs.take 4) = jb.length := by
  obtain ⟨hc, jb', hj', hfit, hbs⟩ := package_ok m blocks bs hok
  rw [hj'] at hj
  injection hj with hjj
  subst hjj
  rw [hbs, List.append_assoc, show (4 : Nat) = (beBytes jb'.length).length from rfl,
    List.take_left, beValue_beBytes _ hfit]

/-- C2 witness: the header of the empty frame reads back `2`, the length
of the two JSON bytes. -/
theorem claim2_header_witness :
    beValue (([0, 0, 0, 2, 123, 125] : Bytes).take 4) = ([123, 125] : Bytes).length :=
  claim2_header [] [] [0, 0, 0, 2, 123, 125] [123, 125] (by decide) (by decide)

/-- C3: the block loop of `unpackage` implements the specification's
slicing rule — block `i` is cut at the running offset advanced by the
declared sizes of blocks `0..i-1`, with its declared size, in metadata
list order — and when every declared size fits in the buffer, the
recovered data lengths are the declared sizes and bytes appended beyond
the last declared block change nothing. -/
theorem claim3_slicing (data junk : Bytes) (start : Int)
    (entries : List (Str × Nat × Option Str)) :
    unpackBlocks data start (entries.map metaObjOf) =
      .ok (specSliceBlocks data start entries) ∧
    (0 ≤ start → start + (sumSizes entries : Int) ≤ (data.length : Int) →
      (specSliceBlocks data start entries).map (fun b => b.size) =
        entries.map (fun e => e.2.1) ∧
      specSliceBlocks (data ++ junk) start entries =
        specSliceBlocks data start entries) :=
  ⟨unpackBlocks_spec data entries start,
    fun h0 hfit => ⟨specSliceBlocks_sizes data entries start h0 hfit,
      specSliceBlocks_append data junk entries start h0 hfit⟩⟩

/-- C3 witness: two declared blocks of sizes 2 and 1 starting at offset 4
in an 7-byte buffer, with 2 junk bytes appended. -/
theorem claim3_slicing_witness :
    unpackBlocks [0, 0, 0, 0, 10, 11, 12] 4
        (([(strCodes "x", 2, none), (strCodes "y", 1, some (strCodes "u"))] :
          List (Str × Nat × Option Str)).map metaObjOf) =
      .ok (specSliceBlocks [0, 0, 0, 0, 10, 11, 12] 4
        [(strCodes "x", 2, none), (strCodes "y", 1, some (strCodes "u"))]) ∧
    ((specSliceBlocks [0, 0, 0, 0, 10, 11, 12] 4
        [(strCodes "x", 2, none), (strCodes "y", 1, some (strCodes "u"))]).map
          (fun b => b.size) =
      ([(strCodes "x", 2, none), (strCodes "y", 1, some (strCodes "u"))] :
          List (Str × Nat × Option Str)).map (fun e => e.2.1) ∧
      specSliceBlocks ([0, 0, 0, 0, 10, 11, 12] ++ [9, 9]) 4
          [(strCodes "x", 2, none), (strCodes "y", 1, some (strCodes "u"))] =
        specSliceBlocks [0, 0, 0, 0, 10, 11, 12] 4
          [(strCodes "x", 2, none), (strCodes "y", 1, some (strCodes "u"))]) :=
  ⟨(claim3_slicing [0, 0, 0, 0, 10, 11, 12] [9, 9] 4
      [(strCodes "x", 2, none), (strCodes "y", 1, some (strCodes "u"))]).1,
    (claim3_slicing [0, 0, 0, 0, 10, 11, 12] [9, 9] 4
      [(strCodes "x", 2, none), (strCodes "y", 1, some (strCodes "u"))]).2
      (by decide) (by decide)⟩

/-- C4 (amended): `unpackage` raises no `FrameError` — no such exception
exists.  A buffer shorter than the 4-byte header fails with
`struct.error`, and the first five bytes of the shortest valid frame fail
with a JSON decode error.  A buffer merely shorter than `4 + N`, or a
declared block size past the end of the buffer, is NOT an error: the
slices clamp silently (see the counterexample). -/
theorem claim4_truncation (bs : Bytes) (h : bs.length < 4) :
    unpackage bs = .error .structError ∧
    unpackage (([0, 0, 0, 2, 123, 125] : Bytes).take 5) = .error .jsonDecodeError := by
  constructor
  · rw [unpackage, show structUnpackL (bs.take 4) = .error .structError from by
      rw [structUnpackL, if_neg (by simp only [List.length_take]; omega)],
      unpackHeader]
  · decide

/-- C4 witness: a 2-byte buffer fails with `struct.error`, and the 5-byte
truncation of the empty frame fails with a JSON decode error. -/
theorem claim4_truncation_witness :
    unpackage [0, 0] = .error .structError ∧
    unpackage (([0, 0, 0, 2, 123, 125] : Bytes).take 5) = .error .jsonDecodeError :=
  claim4_truncation [0, 0] (by decide)

/-- C4 counterexample: a 6-byte buffer whose header declares `N = 10`
(well short of `4 + N`) unpackages successfully because the JSON slice
clamps; and a frame declaring a 4-byte block with only 2 block bytes
present returns a silently truncated block instead of failing. -/
theorem claim4_truncation_counterexample :
    unpackage [0, 0, 0, 10, 123, 125] = .ok (([] : PyDict), ([] : List DataBlock)) ∧
    unpackage [0, 0, 0, 43, 123, 34, 100, 97, 116, 97, 95, 98, 108, 111, 99,
        107, 115, 34, 58, 32, 91, 123, 34, 110, 97, 109, 101, 34, 58, 32, 34,
        102, 34, 44, 32, 34, 115, 105, 122, 101, 34, 58, 32, 52, 125, 93, 125,
        55, 56] =
      .ok (([] : PyDict), [⟨strCodes "f", [55, 56], none⟩]) :=
  ⟨by decide, by decide⟩

/-- C5: when the caller's dict already contains the reserved
`'data_blocks'` key, `package` raises `ValueError` and returns no bytes,
for every block list. -/
theorem claim5_reserved (m : PyDict) (blocks : List DataBlock)
    (h : pyContains m DATABLOCK_KEY = true) :
    (package m blocks).1 = .error .valueError := by
  rw [package, if_pos h]

/-- C5 witness: a dict holding the reserved key is rejected. -/
theorem claim5_reserved_witness :
    (package [(DATABLOCK_KEY, JVal.bool true)] []).1 = .error .valueError :=
  claim5_reserved [(DATABLOCK_KEY, JVal.bool true)] [] (by decide)

/-- C6 (spec-modelled `serialize`/`deserialize`): the serialization object
nests the caller's message under the protocol's message key; the block
metadata list sits under the reserved key exactly when there are blocks;
and on the way back the message is read from the message key, an empty
mapping when that key is absent. -/
theorem claim6_nesting (message : PyDict) (blocks : List DataBlock)
    (dd mm : PyDict) :
    pyGet (serObj message blocks) DATA_DICT_KEY = .ok (.obj message) ∧
    (blocks = [] → serObj message blocks = [(DATA_DICT_KEY, .obj message)]) ∧
    (blocks ≠ [] →
      pyGet (serObj message blocks) DATABLOCK_KEY = .ok (metaList blocks)) ∧
    (pyGet dd DATA_DICT_KEY = .ok (.obj mm) → deserializeMsg dd = mm) ∧
    (pyContains dd DATA_DICT_KEY = false → deserializeMsg dd = []) := by
  refine ⟨?_, ?_, ?_, ?_, ?_⟩
  · rw [serObj, pyGet, if_pos rfl]
  · intro hnil
    subst hnil
    rfl
  · intro hne
    have hie : blocks.isEmpty = false := by
      cases blocks with
      | nil => exact absurd rfl hne
      | cons b bl => rfl
    rw [serObj, hie, if_neg (by simp), pyGet, if_neg (by decide), pyGet, if_pos rfl]
  · intro hget
    rw [deserializeMsg, hget]
  · intro hnc
    rw [deserializeMsg, pyGet_not_contains dd _ hnc]

/-- C6 witness: the nesting facts at concrete messages, blocks and parsed
documents. -/
theorem claim6_nesting_witness :
    serObj [(strCodes "k", JVal.null)] [] =
      [(DATA_DICT_KEY, .obj [(strCodes "k", JVal.null)])] ∧
    pyGet (serObj [] [⟨strCodes "f", [49], none⟩]) DATABLOCK_KEY =
      .ok (metaList [⟨strCodes "f", [49], none⟩]) ∧
    deserializeMsg [(DATA_DICT_KEY, .obj [(strCodes "m", JVal.bool true)])] =
      [(strCodes "m", JVal.bool true)] ∧
    deserializeMsg [] = [] :=
  ⟨(claim6_nesting [(strCodes "k", JVal.null)] [] [] []).2.1 rfl,
    (claim6_nesting [] [⟨strCodes "f", [49], none⟩] [] []).2.2.1 (by decide),
    (claim6_nesting [] [] [(DATA_DICT_KEY, .obj [(strCodes "m", JVal.bool true)])]
      [(strCodes "m", JVal.bool true)]).2.2.2.1 (by decide),
    (claim6_nesting [] [] [] []).2.2.2.2 (by decide)⟩

/-- C7: the first line of both `package` and `unpackage` in
`src/json_network/protocol.py` reads the local `error` before any
assignment to it (the parameter is spelled `errors`), so every call —
whatever the policy string, recognized or not — raises
`UnboundLocalError`.  Nothing ever falls back to `'strict'`, and no call
with an unrecognized policy proceeds. -/
theorem claim7_policy_bug (data : PyDict) (blocks : List DataBlock)
    (errors : Str) (bs : Bytes) :
    (jnPackage data blocks errors).1 = .error .unboundLocalError ∧
    jnUnpackage bs errors = .error .unboundLocalError :=
  ⟨rfl, rfl⟩

/-- C8: `close()` cannot complete on a non-degenerate queue — `_send_loop`
never calls `task_done()`, so after `close()` has put the `None` sentinel
the unfinished-task count of `send_queue` stays positive through every run
of the loop, and the `send_queue.join()` call inside `close()` never
returns. -/
theorem claim8_close_deadlock {α : Type} (q q' : QueueState α)
    (hrun : SendLoopRun (queuePut q none) q') :
    ¬ joinReturns q' := by
  have hrun' : Relation.ReflTransGen SendLoopStep (queuePut q none) q' := hrun
  have hpres : ∀ a b : QueueState α, Relation.ReflTransGen SendLoopStep a b →
      b.unfinished = a.unfinished := by
    intro a b hab
    induction hab with
    | refl => rfl
    | tail _ hstep ih =>
      cases hstep
      exact ih
  intro hj
  have h1 := hpres _ _ hrun'
  rw [joinReturns] at hj
  simp only [queuePut] at h1
  omega

/-- C8 witness: already with no loop iterations after the sentinel is put
on an empty queue, `join` cannot return. -/
theorem claim8_close_deadlock_witness :
    ¬ joinReturns (queuePut (⟨[], 0⟩ : QueueState Nat) none) :=
  claim8_close_deadlock ⟨[], 0⟩ (queuePut ⟨[], 0⟩ none) Relation.ReflTransGen.refl

/-- C9: a successful `package` mutates the caller's dict in place — with a
non-empty block list, the dict afterwards carries the reserved key mapped
to the per-block metadata list, appended after the caller's entries; with
no blocks it is unchanged. -/
theorem claim9_mutation (m : PyDict) (blocks : List DataBlock)
    (hc : pyContains m DATABLOCK_KEY = false) :
    (0 < blocks.length →
      (package m blocks).2 = m ++ [(DATABLOCK_KEY, metaList blocks)]) ∧
    (blocks.length = 0 → (package m blocks).2 = m) := by
  have hsnd : (package m blocks).2 = (if 0 < blocks.length then
      m ++ [(DATABLOCK_KEY, metaList blocks)] else m) := by
    rw [package, if_neg (by simp [hc])]
    dsimp only
    cases hE : utf8Encode (dumps (.obj (if 0 < blocks.length then
        m ++ [(DATABLOCK_KEY, metaList blocks)] else m))) with
    | none => rfl
    | some jb =>
      show (match structPackL jb.length with
        | .error e => ((.error e : Except PyErr Bytes),
            if 0 < blocks.length then m ++ [(DATABLOCK_KEY, metaList blocks)] else m)
        | .ok hb => (.ok (hb ++ jb ++ (blocks.map (fun (b : DataBlock) => b.data)).flatten),
            if 0 < blocks.length then m ++ [(DATABLOCK_KEY, metaList blocks)] else m)).2 =
        if 0 < blocks.length then m ++ [(DATABLOCK_KEY, metaList blocks)] else m
      cases structPackL jb.length with
      | error e => rfl
      | ok hb => rfl
  constructor
  · intro hb
    rw [hsnd, if_pos hb]
  · intro hb
    rw [hsnd, if_neg (by omega)]

/-- C9 witness: after packaging one block, the caller's dict holds the
reserved key and the block's metadata; the `.1` facts are checked by the
round-trip witnesses. -/
theorem claim9_mutation_witness :
    (package [(strCodes "a", JVal.int 1)] [⟨strCodes "f", [49], none⟩]).2 =
      [(strCodes "a", JVal.int 1)] ++
        [(DATABLOCK_KEY, metaList [⟨strCodes "f", [49], none⟩])] :=
  (claim9_mutation [(strCodes "a", JVal.int 1)] [⟨strCodes "f", [49], none⟩]
    (by decide)).1 (by decide)

/-- C10: the reserved-key failure is atomic — the check runs before any
metadata insertion, so the failing `package` raises `ValueError` and
leaves the caller's dict exactly as it was, for every block list. -/
theorem claim10_atomic (m : PyDict) (blocks : List DataBlock)
    (h : pyContains m DATABLOCK_KEY = true) :
    (package m blocks).1 = .error .valueError ∧ (package m blocks).2 = m := by
  rw [package, if_pos h]
  exact ⟨rfl, rfl⟩

/-- C10 witness: the failing call at a concrete dict and a non-empty block
list leaves the dict untouched. -/
theorem claim10_atomic_witness :
    (package [(DATABLOCK_KEY, JVal.null)] [⟨strCodes "f", [49], none⟩]).1 =
      .error .valueError ∧
    (package [(DATABLOCK_KEY, JVal.null)] [⟨strCodes "f", [49], none⟩]).2 =
      [(DATABLOCK_KEY, JVal.null)] :=
  claim10_atomic [(DATABLOCK_KEY, JVal.null)] [⟨strCodes "f", [49], none⟩]
    (by decide)
